import Mathlib

/-!
Verification of the Bloom Care scheduling engine.

The development shallowly embeds the two source files of the repository,
src/scheduler/solver.py and src/scheduler/max_continuity.py, into Lean.
Timestamps are integers (seconds); the hour amounts that the Python code
keeps as floats are modelled as exact rationals.  Python dictionaries
(insertion ordered) are modelled as association lists, Python defaultdicts
whose values are only ever read through lookups are modelled as total
functions with the default value built in, and the stable Python sort is
modelled by a stable insertion sort.  The external models module (Visit,
Caregiver, AvailabilityWindow) is not part of the sources, so those
definitions are modelled from the spec, as marked in their doc comments.
-/

namespace BloomCare

/-- Modelled from the spec: a Visit record from the external models module.
Identity id, customer, interval [start, end) with integer timestamps, a
required skill tag and a neighborhood bucket. -/
structure Visit where
  id : ℕ
  customer : ℕ
  start : ℤ
  «end» : ℤ
  required_skill : ℕ
  neighborhood : ℕ
  deriving DecidableEq, Repr

/-- Modelled from the spec: an availability window exposes only the
check_availability predicate on visits (called covers in the spec). -/
structure AvailabilityWindow where
  check_availability : Visit → Bool

/-- Modelled from the spec: a Caregiver record from the external models
module: identity id, skill set, availability windows and a weekly hour cap. -/
structure Caregiver where
  id : ℕ
  skills : List ℕ
  availability : List AvailabilityWindow
  max_hours : ℚ

/-- An output pair, as produced by the solver. -/
structure Assignment where
  visit_id : ℕ
  caregiver_id : ℕ
  deriving DecidableEq, Repr

/-- Modelled from the spec: the intersection test on the half open
intervals [start, end) of two visits. -/
def Visit.overlaps (v w : Visit) : Bool :=
  decide (v.start < w.«end») && decide (w.start < v.«end»)

/-- Modelled from the spec: weekday derivation from a timestamp, the
bucketing key used by the solver; day number of the timestamp modulo seven. -/
def weekday (t : ℤ) : ℤ :=
  (Int.ediv t 86400) % 7

/-- The calendar day a timestamp falls on. -/
def calendarDay (t : ℤ) : ℤ :=
  Int.ediv t 86400

/-- Duration of a visit in hours, the quantity
(visit.end - visit.start).total_seconds() / 3600.0 of the source. -/
def visit_hours (v : Visit) : ℚ :=
  ((v.«end» - v.start : ℤ) : ℚ) / 3600

/-! ### Association lists standing for Python dicts -/

/-- Lookup in an insertion-ordered map of lists; missing keys give the
defaultdict default, the empty list. -/
def dlookup {κ β : Type} [DecidableEq κ] : List (κ × List β) → κ → List β
  | [], _ => []
  | p :: rest, k => if p.1 = k then p.2 else dlookup rest k

/-- Append a value to the list stored under a key, creating the key at the
end of the map when absent, exactly as a Python defaultdict of lists does. -/
def dappend {κ β : Type} [DecidableEq κ] : List (κ × List β) → κ → β → List (κ × List β)
  | [], k, v => [(k, [v])]
  | p :: rest, k, v => if p.1 = k then (p.1, p.2 ++ [v]) :: rest else p :: dappend rest k v

/-- Group a list by a key, keys in order of first appearance, each bucket in
input order: the defaultdict grouping idiom of the source. -/
def dgroup {κ β : Type} [DecidableEq κ] (key : β → κ) (l : List β) : List (κ × List β) :=
  l.foldl (fun m v => dappend m (key v) v) []

/-! ### A stable sort, the semantics of the Python sorted builtin -/

/-- Insert into a sorted list, before the first element it is not strictly
after; with a total preorder this realizes a stable sort step. -/
def sInsert {α : Type} (le : α → α → Bool) (x : α) : List α → List α
  | [] => [x]
  | y :: ys => if le x y then x :: y :: ys else y :: sInsert le x ys

/-- Stable sort by a boolean comparison: the semantics of the stable Python
sorted builtin with the comparison as key order. -/
def sSort {α : Type} (le : α → α → Bool) : List α → List α
  | [] => []
  | x :: xs => sInsert le x (sSort le xs)

theorem sSort_cons {α : Type} (le : α → α → Bool) (x : α) (xs : List α) :
    sSort le (x :: xs) = sInsert le x (sSort le xs) := rfl

theorem sInsert_cons {α : Type} (le : α → α → Bool) (x y : α) (ys : List α) :
    sInsert le x (y :: ys) = if le x y then x :: y :: ys else y :: sInsert le x ys := rfl

/-- Comparison by start timestamp (the key=lambda v: v.start of the source). -/
def startLe (a b : Visit) : Bool :=
  decide (a.start ≤ b.start)

/-- Comparison by end timestamp (the key=lambda v: v.end of the source). -/
def endLe (a b : Visit) : Bool :=
  decide (a.«end» ≤ b.«end»)

/-! ### The run-scoped bookkeeping of the solver -/

/-- The shared bookkeeping of one solve call: caregiver_hours (a defaultdict
from caregiver id to accumulated hours, default zero) and
caregiver_daily_visits (a defaultdict from caregiver id to an insertion
ordered map from weekday to the list of visits assigned there). -/
structure Ledger where
  hours : ℕ → ℚ
  daily : ℕ → List (ℤ × List Visit)

/-- The full state threaded through a solve call: the output list under
construction together with the ledger. -/
structure SolveState where
  assignments : List Assignment
  ledger : Ledger

/-- All visits recorded for one caregiver across the days of its schedule. -/
def assignedVisits (led : Ledger) (cid : ℕ) : List Visit :=
  ((led.daily cid).map (fun p => p.2)).flatten

/-- Total duration in hours of a list of visits. -/
def hoursSum (vs : List Visit) : ℚ :=
  (vs.map visit_hours).sum

/-! ### The solver, translated function by function from solver.py -/

/-- is_caregiver_eligible_for_visit of solver.py: skill present, some window
covers the visit, no overlap with a visit already on the same weekday, and
the hour cap is not exceeded. -/
def is_caregiver_eligible_for_visit (caregiver : Caregiver) (visit : Visit)
    (current_hours : ℚ) (daily_visits : List (ℤ × List Visit)) : Bool :=
  if visit.required_skill ∉ caregiver.skills then false
  else if !(caregiver.availability.any fun av => av.check_availability visit) then false
  else if (dlookup daily_visits (weekday visit.start)).any (fun v => visit.overlaps v) then false
  else if caregiver.max_hours < current_hours + visit_hours visit then false
  else true

/-- The simulation loop of find_best_caregiver_for_customer: walk the
customer's visits, checking eligibility against the scratch hours and the
scratch day map and extending them, aborting at the first ineligible visit.
Returns the final scratch state on success. -/
def simulate_block (caregiver : Caregiver) :
    List Visit → ℚ → List (ℤ × List Visit) → Option (ℚ × List (ℤ × List Visit))
  | [], temp_hours, temp_daily => some (temp_hours, temp_daily)
  | visit :: rest, temp_hours, temp_daily =>
    if is_caregiver_eligible_for_visit caregiver visit temp_hours temp_daily then
      simulate_block caregiver rest (temp_hours + visit_hours visit)
        (dappend temp_daily (weekday visit.start) visit)
    else none

/-- The inner scan of the switch counter: one unit for every adjacent pair
of distinct neighborhoods in the given order. -/
def count_switches : List Visit → ℕ
  | [] => 0
  | [_] => 0
  | a :: b :: rest =>
    (if b.neighborhood ≠ a.neighborhood then 1 else 0) + count_switches (b :: rest)

/-- The switch score of a simulated schedule, as solver.py computes it: for
every day of the map holding more than one visit, count adjacent
neighborhood changes in the start-sorted listing of that day, and sum. -/
def total_switches (td : List (ℤ × List Visit)) : ℕ :=
  (td.map (fun p => if p.2.length > 1 then count_switches (sSort startLe p.2) else 0)).sum

/-- The continuity bonus of solver.py: how many visits of this same customer
are already on record for the caregiver, over all days. -/
def continuity_bonus (customer : ℕ) (daily : List (ℤ × List Visit)) : ℕ :=
  (daily.map (fun p => (p.2.filter (fun v => v.customer = customer)).length)).sum

/-- The per-candidate computation of find_best_caregiver_for_customer: when
the whole-block simulation from the caregiver's real ledger entries
succeeds, the tuple (switches, real pre-simulation hours, minus continuity
bonus); otherwise none. -/
def block_score (customer : ℕ) (customer_visits : List Visit) (st : Ledger)
    (caregiver : Caregiver) : Option (ℕ × ℚ × ℤ) :=
  match simulate_block caregiver customer_visits (st.hours caregiver.id)
      (st.daily caregiver.id) with
  | none => none
  | some r =>
    some (total_switches r.2, st.hours caregiver.id,
      -(continuity_bonus customer (st.daily caregiver.id) : ℤ))

/-- Lexicographic order on the (switches, hours, -continuity_bonus) score
tuples, the order Python applies to the sort key at line 96 of solver.py. -/
def score_le (a b : ℕ × ℚ × ℤ) : Bool :=
  decide (a.1 < b.1) ||
    (decide (a.1 = b.1) && (decide (a.2.1 < b.2.1) ||
      (decide (a.2.1 = b.2.1) && decide (a.2.2 ≤ b.2.2))))

/-- The candidate loop of find_best_caregiver_for_customer: every shared
read is threaded through the state explicitly; the scratch state lives only
inside simulate_block. Produces the possible_caregivers list. -/
def find_best_loop (customer : ℕ) (customer_visits : List Visit) :
    List Caregiver → Ledger → (List ((ℕ × ℚ × ℤ) × Caregiver)) × Ledger
  | [], st => ([], st)
  | caregiver :: rest, st =>
    let temp_hours := st.hours caregiver.id
    let temp_daily := st.daily caregiver.id
    match simulate_block caregiver customer_visits temp_hours temp_daily with
    | none => find_best_loop customer customer_visits rest st
    | some r =>
      let switches := total_switches r.2
      let bonus := continuity_bonus customer (st.daily caregiver.id)
      let rec' := find_best_loop customer customer_visits rest st
      (((switches, st.hours caregiver.id, -(bonus : ℤ)), caregiver) :: rec'.1, rec'.2)

/-- find_best_caregiver_for_customer of solver.py: build the list of
caregivers passing the whole-block simulation with their scores, stable-sort
by score, return the first, or none when the list is empty.  The ledger is
threaded to mirror that the Python function holds the shared dictionaries. -/
def find_best_caregiver_for_customer (customer : ℕ) (customer_visits : List Visit)
    (caregivers : List Caregiver) (st : Ledger) : Option Caregiver × Ledger :=
  let r := find_best_loop customer customer_visits caregivers st
  match sSort (fun a b => score_le a.1 b.1) r.1 with
  | [] => (none, r.2)
  | p :: _ => (some p.2, r.2)

/-- The travel bonus of find_best_caregiver_for_visit: one when the last
visit (by end time, stable order) already recorded for the caregiver on the
visit's weekday shares its neighborhood, zero otherwise. -/
def travel_bonus_for (st : Ledger) (caregiver : Caregiver) (visit : Visit) : ℕ :=
  let last_same_day := sSort endLe (dlookup (st.daily caregiver.id) (weekday visit.start))
  match last_same_day.getLast? with
  | some last_visit => if last_visit.neighborhood = visit.neighborhood then 1 else 0
  | none => 0

/-- Lexicographic order on the (-travel_bonus, hours) score pairs, the key
order of the fallback sort at line 125 of solver.py. -/
def pair_le (a b : ℤ × ℚ) : Bool :=
  decide (a.1 < b.1) || (decide (a.1 = b.1) && decide (a.2 ≤ b.2))

/-- find_best_caregiver_for_visit of solver.py: collect every eligible
caregiver with its (-travel_bonus, current hours) score, stable-sort by
score, return the first, or none when no caregiver is eligible. -/
def find_best_caregiver_for_visit (visit : Visit) (caregivers : List Caregiver)
    (st : Ledger) : Option Caregiver :=
  let eligible := caregivers.filterMap (fun caregiver =>
    if is_caregiver_eligible_for_visit caregiver visit (st.hours caregiver.id)
        (st.daily caregiver.id) then
      some ((-(travel_bonus_for st caregiver visit : ℤ), st.hours caregiver.id), caregiver)
    else none)
  match sSort (fun a b => pair_le a.1 b.1) eligible with
  | [] => none
  | p :: _ => some p.2

/-- First element with minimal start, the semantics of the Python min
builtin with key start. -/
def min_by_start (v : Visit) (vs : List Visit) : Visit :=
  vs.foldl (fun acc w => if w.start < acc.start then w else acc) v

/-- The choice of the next visit inside the while loop of
assign_all_visits_to_caregiver: prefer the earliest same-neighborhood visit
starting at or after the current end, else the earliest visit starting at or
after the current end, else the earliest remaining visit. -/
def route_next (current t : Visit) (ts : List Visit) : Visit :=
  match (t :: ts).filter (fun v =>
      v.neighborhood = current.neighborhood && decide (current.«end» ≤ v.start)) with
  | n :: ns => min_by_start n ns
  | [] =>
    match (t :: ts).filter (fun v => decide (current.«end» ≤ v.start)) with
    | n :: ns => min_by_start n ns
    | [] => min_by_start t ts

/-- The while loop of assign_all_visits_to_caregiver: repeatedly pick the
next visit, remove it and continue.  Fuel bounds the iteration count and
always suffices, one element being removed per step. -/
def route_loop (current : Visit) (to_assign : List Visit) : ℕ → List Visit
  | 0 => []
  | fuel + 1 =>
    match to_assign with
    | [] => []
    | t :: ts =>
      route_next current t ts ::
        route_loop (route_next current t ts) ((t :: ts).erase (route_next current t ts)) fuel

/-- The per-day reordering of assign_all_visits_to_caregiver: start from the
earliest visit, then run the greedy loop over the remaining ones. -/
def route_order_day (day_visits : List Visit) : List Visit :=
  match day_visits with
  | [] => []
  | a :: rest =>
    let current := min_by_start a rest
    current :: route_loop current ((a :: rest).erase current) (a :: rest).length

/-- The ordered_visits list of assign_all_visits_to_caregiver: group the
block by weekday in insertion order and concatenate the per-day greedy
orders. -/
def ordered_visits_of (visits : List Visit) : List Visit :=
  ((dgroup (fun v => weekday v.start) visits).map (fun p => route_order_day p.2)).flatten

/-- assign_visit of solver.py, the shared assignment act: append the output
pair, add the duration to the caregiver's hours, append the visit to the
caregiver's list for the visit's weekday. -/
def assign_visit (st : SolveState) (visit : Visit) (caregiver : Caregiver) : SolveState :=
  { assignments := st.assignments ++ [{ visit_id := visit.id, caregiver_id := caregiver.id }],
    ledger :=
      { hours := fun i =>
          if i = caregiver.id then st.ledger.hours i + visit_hours visit else st.ledger.hours i,
        daily := fun i =>
          if i = caregiver.id then dappend (st.ledger.daily i) (weekday visit.start) visit
          else st.ledger.daily i } }

/-- assign_all_visits_to_caregiver of solver.py: compute the per-day greedy
orders, then commit every visit through assign_visit in the start-sorted
order of that list. -/
def assign_all_visits_to_caregiver (st : SolveState) (visits : List Visit)
    (caregiver : Caregiver) : SolveState :=
  (sSort startLe (ordered_visits_of visits)).foldl
    (fun s v => assign_visit s v caregiver) st

/-- group_visits_by_customer of solver.py. -/
def group_visits_by_customer (visits : List Visit) : List (ℕ × List Visit) :=
  dgroup (fun v => v.customer) visits

/-- One iteration of the per-visit fallback loop of solve: assign the visit
to the best caregiver when one is eligible, otherwise leave the state
untouched. -/
def fallback_step (caregivers : List Caregiver) (st : SolveState) (visit : Visit) :
    SolveState :=
  match find_best_caregiver_for_visit visit caregivers st.ledger with
  | some chosen => assign_visit st visit chosen
  | none => st

/-- One iteration of the customer loop of solve: sort the customer's visits
by start, try the block assignment, and on failure fall through to the
per-visit fallback. -/
def process_customer (caregivers : List Caregiver) (st : SolveState)
    (p : ℕ × List Visit) : SolveState :=
  let customer_visits := sSort startLe p.2
  match find_best_caregiver_for_customer p.1 customer_visits caregivers st.ledger with
  | (some chosen, led) =>
    assign_all_visits_to_caregiver { st with ledger := led } customer_visits chosen
  | (none, led) =>
    customer_visits.foldl (fallback_step caregivers) { st with ledger := led }

/-- solve of solver.py, with the final state exposed. -/
def run_solve (visits : List Visit) (caregivers : List Caregiver) : SolveState :=
  (group_visits_by_customer visits).foldl (process_customer caregivers)
    { assignments := [], ledger := { hours := fun _ => 0, daily := fun _ => [] } }

/-- solve of solver.py: the assignment list accumulated over all customers. -/
def solve (visits : List Visit) (caregivers : List Caregiver) : List Assignment :=
  (run_solve visits caregivers).assignments

/-! ### max_continuity.py -/

/-- max_continuity_score of max_continuity.py: group visits by customer,
score one point for a single-visit customer and 1 - 1/n for an n-visit
customer, and average; one when there are no visits. -/
def max_continuity_score (visits : List Visit) : ℚ :=
  let visits_by_customer := dgroup (fun v => v.customer) visits
  let scores := visits_by_customer.map (fun p =>
    if p.2.length = 1 then 1 else 1 - 1 / (p.2.length : ℚ))
  if scores = [] then 1 else scores.sum / (scores.length : ℚ)

/-! ### Lemmas about the association-list dictionaries -/

theorem dlookup_dappend_self {κ β : Type} [DecidableEq κ] (m : List (κ × List β)) (k : κ)
    (v : β) : dlookup (dappend m k v) k = dlookup m k ++ [v] := by
  induction m with
  | nil => simp [dappend, dlookup]
  | cons p rest ih =>
    by_cases h : p.1 = k
    · simp [dappend, dlookup, h]
    · simp [dappend, dlookup, h, ih]

theorem dlookup_dappend_ne {κ β : Type} [DecidableEq κ] (m : List (κ × List β)) (k j : κ)
    (v : β) (hjk : j ≠ k) : dlookup (dappend m k v) j = dlookup m j := by
  induction m with
  | nil => simp [dappend, dlookup, Ne.symm hjk]
  | cons p rest ih =>
    by_cases h : p.1 = k
    · simp [dappend, dlookup, h, Ne.symm hjk]
    · by_cases h2 : p.1 = j <;> simp [dappend, dlookup, h, h2, hjk, ih]

theorem map_fst_dappend {κ β : Type} [DecidableEq κ] (m : List (κ × List β)) (k : κ)
    (v : β) :
    (dappend m k v).map Prod.fst =
      if k ∈ m.map Prod.fst then m.map Prod.fst else m.map Prod.fst ++ [k] := by
  induction m with
  | nil => simp [dappend]
  | cons p rest ih =>
    by_cases h : p.1 = k
    · simp [dappend, h]
    · have : ¬ k = p.1 := fun h2 => h h2.symm
      by_cases h2 : k ∈ rest.map Prod.fst <;>
        simp [dappend, h, this, h2, ih]

theorem nodup_map_fst_dappend {κ β : Type} [DecidableEq κ] (m : List (κ × List β)) (k : κ)
    (v : β) (h : (m.map Prod.fst).Nodup) : ((dappend m k v).map Prod.fst).Nodup := by
  rw [map_fst_dappend]
  by_cases h2 : k ∈ m.map Prod.fst
  · simpa [h2]
  · simpa [h2, List.nodup_append] using h

theorem mem_dappend {κ β : Type} [DecidableEq κ] (m : List (κ × List β)) (k : κ) (v : β)
    (p : κ × List β) (hp : p ∈ dappend m k v) :
    p ∈ m ∨ (p.1 = k ∧ p.2 = dlookup m k ++ [v]) := by
  induction m with
  | nil =>
    simp only [dappend, List.mem_singleton] at hp
    subst hp
    exact Or.inr ⟨rfl, by simp [dlookup]⟩
  | cons q rest ih =>
    by_cases h : q.1 = k
    · rw [dappend, if_pos h] at hp
      rcases List.mem_cons.1 hp with h1 | h1
      · subst h1
        exact Or.inr ⟨h, by simp [dlookup, h]⟩
      · exact Or.inl (List.mem_cons_of_mem _ h1)
    · rw [dappend, if_neg h] at hp
      rcases List.mem_cons.1 hp with h1 | h1
      · subst h1
        exact Or.inl (List.mem_cons_self _ _)
      · rcases ih h1 with hm | ⟨hk1, hk2⟩
        · exact Or.inl (List.mem_cons_of_mem _ hm)
        · refine Or.inr ⟨hk1, ?_⟩
          rw [hk2, dlookup, if_neg h]

theorem flatten_dappend_perm {κ β : Type} [DecidableEq κ] (m : List (κ × List β)) (k : κ)
    (v : β) :
    (((dappend m k v).map (fun p => p.2)).flatten).Perm
      ((m.map (fun p => p.2)).flatten ++ [v]) := by
  induction m with
  | nil => simp [dappend]
  | cons p rest ih =>
    by_cases h : p.1 = k
    · rw [dappend, if_pos h]
      simp only [List.map_cons, List.flatten_cons]
      have h1 : (p.2 ++ [v]) ++ (rest.map (fun p => p.2)).flatten =
          p.2 ++ ([v] ++ (rest.map (fun p => p.2)).flatten) := by
        simp [List.append_assoc]
      have h2 : (([v] ++ (rest.map (fun p => p.2)).flatten)).Perm
          ((rest.map (fun p => p.2)).flatten ++ [v]) := List.perm_append_comm
      rw [h1, List.append_assoc]
      exact h2.append_left p.2
    · rw [dappend, if_neg h]
      simp only [List.map_cons, List.flatten_cons]
      rw [List.append_assoc]
      exact ih.append_left p.2

theorem dgroup_flatten_perm_aux {κ β : Type} [DecidableEq κ] (key : β → κ) (l : List β) :
    ∀ m : List (κ × List β),
      (((l.foldl (fun m v => dappend m (key v) v) m).map (fun p => p.2)).flatten).Perm
        ((m.map (fun p => p.2)).flatten ++ l) := by
  induction l with
  | nil => intro m; simp
  | cons x xs ih =>
    intro m
    rw [List.foldl_cons]
    refine (ih (dappend m (key x) x)).trans ?_
    have h1 : (((dappend m (key x) x).map (fun p => p.2)).flatten ++ xs).Perm
        (((m.map (fun p => p.2)).flatten ++ [x]) ++ xs) :=
      (flatten_dappend_perm m (key x) x).append_right xs
    refine h1.trans ?_
    rw [List.append_assoc]
    exact List.Perm.refl _

theorem dgroup_flatten_perm {κ β : Type} [DecidableEq κ] (key : β → κ) (l : List β) :
    (((dgroup key l).map (fun p => p.2)).flatten).Perm l := by
  simpa [dgroup] using dgroup_flatten_perm_aux key l []

theorem exists_of_mem_dlookup {κ β : Type} [DecidableEq κ] {m : List (κ × List β)} {k : κ}
    {v : β} (h : v ∈ dlookup m k) : ∃ q ∈ m, q.1 = k ∧ v ∈ q.2 := by
  induction m with
  | nil => simp [dlookup] at h
  | cons p rest ih =>
    by_cases h2 : p.1 = k
    · rw [dlookup, if_pos h2] at h
      exact ⟨p, List.mem_cons_self _ _, h2, h⟩
    · rw [dlookup, if_neg h2] at h
      rcases ih h with ⟨q, hq, hq1, hq2⟩
      exact ⟨q, List.mem_cons_of_mem _ hq, hq1, hq2⟩

theorem dgroup_bucket_key_aux {κ β : Type} [DecidableEq κ] (key : β → κ) (l : List β) :
    ∀ m : List (κ × List β),
      (∀ p ∈ m, ∀ v ∈ p.2, key v = p.1) →
      ∀ p ∈ l.foldl (fun m v => dappend m (key v) v) m, ∀ v ∈ p.2, key v = p.1 := by
  induction l with
  | nil => intro m hm; simpa using hm
  | cons x xs ih =>
    intro m hm
    refine ih _ ?_
    intro p hp v hv
    rcases mem_dappend m (key x) x p hp with h | ⟨h1, h2⟩
    · exact hm p h v hv
    · rw [h2] at hv
      rcases List.mem_append.1 hv with h3 | h3
      · rcases exists_of_mem_dlookup h3 with ⟨q, hq, hq1, hq2⟩
        rw [h1, ← hq1]
        exact hm q hq v hq2
      · simp only [List.mem_singleton] at h3
        rw [h3, h1]

theorem dgroup_bucket_key {κ β : Type} [DecidableEq κ] (key : β → κ) (l : List β) :
    ∀ p ∈ dgroup key l, ∀ v ∈ p.2, key v = p.1 :=
  dgroup_bucket_key_aux key l [] (by simp)

theorem dgroup_keys_nodup_aux {κ β : Type} [DecidableEq κ] (key : β → κ) (l : List β) :
    ∀ m : List (κ × List β), (m.map Prod.fst).Nodup →
      ((l.foldl (fun m v => dappend m (key v) v) m).map Prod.fst).Nodup := by
  induction l with
  | nil => intro m hm; simpa using hm
  | cons x xs ih =>
    intro m hm
    exact ih _ (nodup_map_fst_dappend m (key x) x hm)

theorem dgroup_keys_nodup {κ β : Type} [DecidableEq κ] (key : β → κ) (l : List β) :
    ((dgroup key l).map Prod.fst).Nodup :=
  dgroup_keys_nodup_aux key l [] (by simp)

theorem dlookup_dgroup_aux {κ β : Type} [DecidableEq κ] (key : β → κ) (l : List β) (k : κ) :
    ∀ m : List (κ × List β),
      dlookup (l.foldl (fun m v => dappend m (key v) v) m) k =
        dlookup m k ++ l.filter (fun v => key v = k) := by
  induction l with
  | nil => intro m; simp
  | cons x xs ih =>
    intro m
    by_cases h : key x = k
    · rw [List.foldl_cons, ih, h, dlookup_dappend_self]
      simp [h, List.filter_cons]
    · rw [List.foldl_cons, ih, dlookup_dappend_ne _ _ _ _ (fun h2 => h h2.symm)]
      simp [h, List.filter_cons]

theorem dlookup_dgroup {κ β : Type} [DecidableEq κ] (key : β → κ) (l : List β) (k : κ) :
    dlookup (dgroup key l) k = l.filter (fun v => key v = k) := by
  simpa [dgroup] using dlookup_dgroup_aux key l k []

theorem mem_keys_dgroup_aux {κ β : Type} [DecidableEq κ] (key : β → κ) (l : List β) (k : κ) :
    ∀ m : List (κ × List β),
      (k ∈ (l.foldl (fun m v => dappend m (key v) v) m).map Prod.fst ↔
        k ∈ m.map Prod.fst ∨ ∃ v ∈ l, key v = k) := by
  induction l with
  | nil => intro m; simp
  | cons x xs ih =>
    intro m
    rw [List.foldl_cons, ih (dappend m (key x) x)]
    constructor
    · rintro (h1 | ⟨v, hv, hk⟩)
      · rw [map_fst_dappend] at h1
        by_cases h : key x ∈ m.map Prod.fst
        · rw [if_pos h] at h1
          exact Or.inl h1
        · rw [if_neg h] at h1
          rcases List.mem_append.1 h1 with h2 | h2
          · exact Or.inl h2
          · simp only [List.mem_singleton] at h2
            exact Or.inr ⟨x, List.mem_cons_self _ _, h2.symm⟩
      · exact Or.inr ⟨v, List.mem_cons_of_mem _ hv, hk⟩
    · rintro (h1 | ⟨v, hv, hk⟩)
      · left
        rw [map_fst_dappend]
        by_cases h : key x ∈ m.map Prod.fst
        · rwa [if_pos h]
        · rw [if_neg h]
          exact List.mem_append.2 (Or.inl h1)
      · rcases List.mem_cons.1 hv with rfl | hv2
        · left
          rw [map_fst_dappend]
          by_cases h : key v ∈ m.map Prod.fst
          · rw [if_pos h]
            exact hk ▸ h
          · rw [if_neg h]
            exact List.mem_append.2 (Or.inr (by simp [hk]))
        · exact Or.inr ⟨v, hv2, hk⟩

theorem mem_keys_dgroup {κ β : Type} [DecidableEq κ] (key : β → κ) (l : List β) (k : κ) :
    k ∈ (dgroup key l).map Prod.fst ↔ ∃ v ∈ l, key v = k := by
  simpa [dgroup] using mem_keys_dgroup_aux key l k []

/-! ### Lemmas about the stable sort -/

theorem sInsert_perm {α : Type} (le : α → α → Bool) (x : α) (l : List α) :
    (sInsert le x l).Perm (x :: l) := by
  induction l with
  | nil => exact List.Perm.refl _
  | cons y ys ih =>
    rw [sInsert]
    by_cases h : le x y = true
    · rw [if_pos h]
    · rw [if_neg h]
      exact (ih.cons y).trans (List.Perm.swap x y ys)

theorem sSort_perm {α : Type} (le : α → α → Bool) (l : List α) :
    (sSort le l).Perm l := by
  induction l with
  | nil => exact List.Perm.refl _
  | cons x xs ih =>
    exact (sInsert_perm le x (sSort le xs)).trans (ih.cons x)

theorem mem_sSort {α : Type} (le : α → α → Bool) (l : List α) (a : α) :
    a ∈ sSort le l ↔ a ∈ l :=
  (sSort_perm le l).mem_iff

theorem sSort_eq_nil_iff {α : Type} (le : α → α → Bool) (l : List α) :
    sSort le l = [] ↔ l = [] := by
  constructor
  · intro h
    have := (sSort_perm le l).length_eq
    rw [h] at this
    exact List.length_eq_zero.1 this.symm
  · intro h
    rw [h]
    rfl

theorem sInsert_pairwise {α : Type} (le : α → α → Bool)
    (htot : ∀ a b, le a b = true ∨ le b a = true)
    (htrans : ∀ a b c, le a b = true → le b c = true → le a c = true)
    (x : α) (l : List α) (hl : l.Pairwise (fun a b => le a b = true)) :
    (sInsert le x l).Pairwise (fun a b => le a b = true) := by
  induction l with
  | nil => simp [sInsert]
  | cons y ys ih =>
    rw [List.pairwise_cons] at hl
    obtain ⟨hy, hys⟩ := hl
    rw [sInsert]
    by_cases h : le x y = true
    · rw [if_pos h]
      refine List.pairwise_cons.2 ⟨?_, List.pairwise_cons.2 ⟨hy, hys⟩⟩
      intro b hb
      rcases List.mem_cons.1 hb with rfl | hb2
      · exact h
      · exact htrans x y b h (hy b hb2)
    · rw [if_neg h]
      refine List.pairwise_cons.2 ⟨?_, ih hys⟩
      intro b hb
      rcases List.mem_cons.1 ((sInsert_perm le x ys).mem_iff.1 hb) with hbx | hb2
      · rw [hbx]
        rcases htot x y with h1 | h1
        · exact absurd h1 h
        · exact h1
      · exact hy b hb2

theorem sSort_pairwise {α : Type} (le : α → α → Bool)
    (htot : ∀ a b, le a b = true ∨ le b a = true)
    (htrans : ∀ a b c, le a b = true → le b c = true → le a c = true)
    (l : List α) : (sSort le l).Pairwise (fun a b => le a b = true) := by
  induction l with
  | nil => exact List.Pairwise.nil
  | cons x xs ih => exact sInsert_pairwise le htot htrans x (sSort le xs) ih

/-- The head of the stable sort is the first minimum of the input: it splits
the input with every element weakly after it and every element of the prefix
strictly after it. -/
theorem sSort_head_split {α : Type} (le : α → α → Bool)
    (htot : ∀ a b, le a b = true ∨ le b a = true)
    (htrans : ∀ a b c, le a b = true → le b c = true → le a c = true) :
    ∀ (l : List α) (p : α) (t : List α), sSort le l = p :: t →
      ∃ l₁ l₂, l = l₁ ++ p :: l₂ ∧ (∀ q ∈ l, le p q = true) ∧
        (∀ q ∈ l₁, le q p = false) := by
  intro l
  induction l with
  | nil =>
    intro p t h
    exact absurd h (by simp [sSort])
  | cons x xs ih =>
    intro p t h
    rw [sSort] at h
    cases hxs : sSort le xs with
    | nil =>
      have hxsnil : xs = [] := (sSort_eq_nil_iff le xs).1 hxs
      subst hxsnil
      rw [hxs] at h
      have h2 : [x] = p :: t := h
      injection h2 with h3 h4
      subst h3
      subst h4
      refine ⟨[], [], rfl, ?_, by simp⟩
      intro q hq
      rw [List.mem_singleton] at hq
      subst hq
      rcases htot q q with h1 | h1 <;> exact h1
    | cons h' t' =>
      rw [hxs, sInsert] at h
      obtain ⟨l₁, l₂, hsplit, hmin, hpre⟩ := ih h' t' hxs
      by_cases hcmp : le x h' = true
      · rw [if_pos hcmp] at h
        injection h with hp ht
        subst hp
        refine ⟨[], xs, rfl, ?_, by simp⟩
        intro q hq
        rcases List.mem_cons.1 hq with rfl | hq2
        · rcases htot q q with h1 | h1 <;> exact h1
        · exact htrans x h' q hcmp (hmin q hq2)
      · rw [if_neg hcmp] at h
        injection h with hp ht
        subst hp
        refine ⟨x :: l₁, l₂, by rw [hsplit, List.cons_append], ?_, ?_⟩
        · intro q hq
          rcases List.mem_cons.1 hq with rfl | hq2
          · rcases htot q h' with h1 | h1
            · exact absurd h1 hcmp
            · exact h1
          · exact hmin q hq2
        · intro q hq
          rcases List.mem_cons.1 hq with rfl | hq2
          · simpa using hcmp
          · exact hpre q hq2

/-! ### The concrete score orders are total preorders -/

theorem score_le_total (a b : ℕ × ℚ × ℤ) : score_le a b = true ∨ score_le b a = true := by
  unfold score_le
  rcases lt_trichotomy a.1 b.1 with h | h | h
  · left; simp [h]
  · rcases lt_trichotomy a.2.1 b.2.1 with h2 | h2 | h2
    · left; simp [h, h2]
    · rcases le_total a.2.2 b.2.2 with h3 | h3
      · left; simp [h, h2, h3]
      · right; simp [h.symm, h2.symm, h3]
    · right; simp [h.symm, h2]
  · right; simp [h]

theorem score_le_trans (a b c : ℕ × ℚ × ℤ) (h1 : score_le a b = true)
    (h2 : score_le b c = true) : score_le a c = true := by
  simp only [score_le, Bool.or_eq_true, Bool.and_eq_true, decide_eq_true_eq] at h1 h2 ⊢
  rcases h1 with h1 | ⟨h1, h1'⟩
  · rcases h2 with h2 | ⟨h2, _⟩
    · exact Or.inl (h1.trans h2)
    · exact Or.inl (h2 ▸ h1)
  · rcases h2 with h2 | ⟨h2, h2'⟩
    · exact Or.inl (h1 ▸ h2)
    · refine Or.inr ⟨h1.trans h2, ?_⟩
      rcases h1' with h1' | ⟨h1', h1''⟩
      · rcases h2' with h2' | ⟨h2', _⟩
        · exact Or.inl (h1'.trans h2')
        · exact Or.inl (h2' ▸ h1')
      · rcases h2' with h2' | ⟨h2', h2''⟩
        · exact Or.inl (h1' ▸ h2')
        · exact Or.inr ⟨h1'.trans h2', h1''.trans h2''⟩

theorem pair_le_total (a b : ℤ × ℚ) : pair_le a b = true ∨ pair_le b a = true := by
  unfold pair_le
  rcases lt_trichotomy a.1 b.1 with h | h | h
  · left; simp [h]
  · rcases le_total a.2 b.2 with h2 | h2
    · left; simp [h, h2]
    · right; simp [h.symm, h2]
  · right; simp [h]

theorem pair_le_trans (a b c : ℤ × ℚ) (h1 : pair_le a b = true)
    (h2 : pair_le b c = true) : pair_le a c = true := by
  simp only [pair_le, Bool.or_eq_true, Bool.and_eq_true, decide_eq_true_eq] at h1 h2 ⊢
  rcases h1 with h1 | ⟨h1, h1'⟩
  · rcases h2 with h2 | ⟨h2, _⟩
    · exact Or.inl (h1.trans h2)
    · exact Or.inl (h2 ▸ h1)
  · rcases h2 with h2 | ⟨h2, h2'⟩
    · exact Or.inl (h1 ▸ h2)
    · exact Or.inr ⟨h1.trans h2, h1'.trans h2'⟩

theorem startLe_total (a b : Visit) : startLe a b = true ∨ startLe b a = true := by
  unfold startLe
  rcases le_total a.start b.start with h | h
  · left; simp [h]
  · right; simp [h]

theorem startLe_trans (a b c : Visit) (h1 : startLe a b = true) (h2 : startLe b c = true) :
    startLe a c = true := by
  simp only [startLe, decide_eq_true_eq] at h1 h2 ⊢
  exact h1.trans h2

theorem endLe_total (a b : Visit) : endLe a b = true ∨ endLe b a = true := by
  unfold endLe
  rcases le_total a.«end» b.«end» with h | h
  · left; simp [h]
  · right; simp [h]

theorem endLe_trans (a b c : Visit) (h1 : endLe a b = true) (h2 : endLe b c = true) :
    endLe a c = true := by
  simp only [endLe, decide_eq_true_eq] at h1 h2 ⊢
  exact h1.trans h2

/-! ### The first-minimum picker the spec describes, and its agreement with
the sort-then-take-first idiom of the code -/

/-- Modelled from the spec: scan the scored candidates keeping the best so
far, replacing it only when a later candidate scores strictly smaller, so
that ties resolve to input-list order. -/
def spec_pick_go {α σ : Type} (le : σ → σ → Bool) (f : α → Option σ) :
    (σ × α) → List α → (σ × α)
  | best, [] => best
  | best, x :: xs =>
    match f x with
    | none => spec_pick_go le f best xs
    | some s =>
      if le s best.1 && !(le best.1 s) then spec_pick_go le f (s, x) xs
      else spec_pick_go le f best xs

/-- Modelled from the spec: the candidate with the smallest score, ties
broken by input-list order; none when no candidate has a score. -/
def spec_pick {α σ : Type} (le : σ → σ → Bool) (f : α → Option σ) :
    List α → Option (σ × α)
  | [] => none
  | x :: xs =>
    match f x with
    | none => spec_pick le f xs
    | some s => some (spec_pick_go le f (s, x) xs)

/-- Modelled from the spec: the first candidate attaining the minimal score. -/
def spec_pick_first_min {α σ : Type} (le : σ → σ → Bool) (f : α → Option σ)
    (cs : List α) : Option α :=
  (spec_pick le f cs).map (fun p => p.2)

theorem spec_pick_go_score_le {α σ : Type} (le : σ → σ → Bool)
    (htot : ∀ a b, le a b = true ∨ le b a = true)
    (htrans : ∀ a b c, le a b = true → le b c = true → le a c = true)
    (f : α → Option σ) :
    ∀ (xs : List α) (b : σ × α), le (spec_pick_go le f b xs).1 b.1 = true := by
  intro xs
  induction xs with
  | nil =>
    intro b
    rcases htot b.1 b.1 with h | h <;> simpa [spec_pick_go] using h
  | cons x xs ih =>
    intro b
    rw [spec_pick_go]
    cases hf : f x with
    | none => exact ih b
    | some s =>
      dsimp only
      by_cases hs : (le s b.1 && !(le b.1 s)) = true
      · have hs' : le s b.1 = true ∧ (!(le b.1 s)) = true := by
          rw [← Bool.and_eq_true]; exact hs
        rw [if_pos hs]
        exact htrans _ _ _ (ih (s, x)) hs'.1
      · rw [if_neg hs]
        exact ih b

theorem spec_pick_go_eq {α σ : Type} (le : σ → σ → Bool)
    (htot : ∀ a b, le a b = true ∨ le b a = true)
    (htrans : ∀ a b c, le a b = true → le b c = true → le a c = true)
    (f : α → Option σ) :
    ∀ (xs : List α) (b : σ × α),
      spec_pick_go le f b xs =
        match spec_pick le f xs with
        | none => b
        | some p => if (le p.1 b.1 && !(le b.1 p.1)) = true then p else b := by
  intro xs
  induction xs with
  | nil => intro b; rfl
  | cons x xs ih =>
    intro b
    rw [spec_pick_go, spec_pick]
    cases hf : f x with
    | none => exact ih b
    | some s =>
      dsimp only
      by_cases hs : (le s b.1 && !(le b.1 s)) = true
      · have hs' : le s b.1 = true ∧ (!(le b.1 s)) = true := by
          rw [← Bool.and_eq_true]; exact hs
        obtain ⟨hs1, hs2⟩ := hs'
        have hns : le b.1 s = false := by
          cases hb : le b.1 s with
          | false => rfl
          | true => rw [hb] at hs2; exact absurd hs2 (by simp)
        rw [if_pos hs, ih (s, x)]
        cases hp : spec_pick le f xs with
        | none =>
          dsimp only
          rw [if_pos hs]
        | some p =>
          dsimp only
          by_cases hps : (le p.1 s && !(le s p.1)) = true
          · have hps' : le p.1 s = true ∧ (!(le s p.1)) = true := by
              rw [← Bool.and_eq_true]; exact hps
            rw [if_pos hps]
            have h1 : le p.1 b.1 = true := htrans _ _ _ hps'.1 hs1
            have h2 : le b.1 p.1 = false := by
              cases hb : le b.1 p.1 with
              | false => rfl
              | true =>
                have h3 : le b.1 s = true := htrans _ _ _ hb hps'.1
                rw [hns] at h3
                exact absurd h3 (by simp)
            rw [if_pos (by rw [h1, h2]; rfl)]
          · rw [if_neg hps]
            dsimp only
            rw [if_pos hs]
      · have hbs : le b.1 s = true := by
          cases hb : le b.1 s with
          | true => rfl
          | false =>
            rcases htot s b.1 with h1 | h1
            · exact absurd (by rw [h1, hb]; rfl) hs
            · rw [h1] at hb; exact absurd hb (by simp)
        rw [if_neg hs, ih b, ih (s, x)]
        cases hp : spec_pick le f xs with
        | none =>
          dsimp only
          rw [if_neg hs]
        | some p =>
          dsimp only
          by_cases hps : (le p.1 s && !(le s p.1)) = true
          · rw [if_pos hps]
          · rw [if_neg hps]
            dsimp only
            rw [if_neg hs]
            have hsp : le s p.1 = true := by
              cases hb : le s p.1 with
              | true => rfl
              | false =>
                rcases htot p.1 s with h1 | h1
                · exact absurd (by rw [h1, hb]; rfl) hps
                · rw [h1] at hb; exact absurd hb (by simp)
            by_cases hpb : (le p.1 b.1 && !(le b.1 p.1)) = true
            · have hpb' : le p.1 b.1 = true ∧ (!(le b.1 p.1)) = true := by
                rw [← Bool.and_eq_true]; exact hpb
              have h3 : le b.1 p.1 = true := htrans _ _ _ hbs hsp
              have h4 := hpb'.2
              rw [h3] at h4
              exact absurd h4 (by simp)
            · rw [if_neg hpb]

theorem spec_pick_none_iff {α σ : Type} (le : σ → σ → Bool) (f : α → Option σ) :
    ∀ cs : List α, (spec_pick le f cs = none ↔ ∀ c ∈ cs, f c = none) := by
  intro cs
  induction cs with
  | nil => simp [spec_pick]
  | cons x xs ih =>
    rw [spec_pick]
    cases hf : f x with
    | none =>
      dsimp only
      rw [ih]
      constructor
      · intro h c hc
        rcases List.mem_cons.1 hc with rfl | hc2
        · exact hf
        · exact h c hc2
      · intro h c hc
        exact h c (List.mem_cons_of_mem _ hc)
    | some s =>
      dsimp only
      constructor
      · intro h
        exact absurd h (by simp)
      · intro h
        have h2 := h x (List.mem_cons_self _ _)
        rw [hf] at h2
        exact absurd h2 (by simp)

theorem spec_pick_go_mem {α σ : Type} (le : σ → σ → Bool) (f : α → Option σ) :
    ∀ (xs : List α) (b : σ × α), f b.2 = some b.1 →
      (spec_pick_go le f b xs = b ∨ (spec_pick_go le f b xs).2 ∈ xs) ∧
        f (spec_pick_go le f b xs).2 = some (spec_pick_go le f b xs).1 := by
  intro xs
  induction xs with
  | nil =>
    intro b hb
    exact ⟨Or.inl rfl, hb⟩
  | cons x xs ih =>
    intro b hb
    rw [spec_pick_go]
    cases hf : f x with
    | none =>
      obtain ⟨h1, h2⟩ := ih b hb
      refine ⟨?_, h2⟩
      rcases h1 with h1 | h1
      · exact Or.inl h1
      · exact Or.inr (List.mem_cons_of_mem _ h1)
    | some s =>
      dsimp only
      by_cases hs : (le s b.1 && !(le b.1 s)) = true
      · rw [if_pos hs]
        obtain ⟨h1, h2⟩ := ih (s, x) hf
        refine ⟨?_, h2⟩
        rcases h1 with h1 | h1
        · exact Or.inr (by rw [h1]; exact List.mem_cons_self _ _)
        · exact Or.inr (List.mem_cons_of_mem _ h1)
      · rw [if_neg hs]
        obtain ⟨h1, h2⟩ := ih b hb
        refine ⟨?_, h2⟩
        rcases h1 with h1 | h1
        · exact Or.inl h1
        · exact Or.inr (List.mem_cons_of_mem _ h1)

theorem spec_pick_mem {α σ : Type} (le : σ → σ → Bool) (f : α → Option σ) :
    ∀ (cs : List α) (p : σ × α), spec_pick le f cs = some p →
      p.2 ∈ cs ∧ f p.2 = some p.1 := by
  intro cs
  induction cs with
  | nil =>
    intro p h
    exact absurd h (by simp [spec_pick])
  | cons x xs ih =>
    intro p h
    rw [spec_pick] at h
    cases hf : f x with
    | none =>
      rw [hf] at h
      dsimp only at h
      obtain ⟨h1, h2⟩ := ih p h
      exact ⟨List.mem_cons_of_mem _ h1, h2⟩
    | some s =>
      rw [hf] at h
      dsimp only at h
      injection h with h'
      obtain ⟨h1, h2⟩ := spec_pick_go_mem le f xs (s, x) hf
      rw [h'] at h1 h2
      refine ⟨?_, h2⟩
      rcases h1 with h1 | h1
      · rw [h1]
        exact List.mem_cons_self _ _
      · exact List.mem_cons_of_mem _ h1

/-- The sort-then-take-first idiom of solver.py computes exactly the
first-minimum pick the spec describes. -/
theorem sSort_filterMap_head_eq {α σ : Type} (le : σ → σ → Bool)
    (htot : ∀ a b, le a b = true ∨ le b a = true)
    (htrans : ∀ a b c, le a b = true → le b c = true → le a c = true)
    (f : α → Option σ) :
    ∀ cs : List α,
      (sSort (fun a b => le a.1 b.1)
          (cs.filterMap (fun c => (f c).map (fun s => (s, c))))).head? =
        spec_pick le f cs := by
  intro cs
  induction cs with
  | nil => rfl
  | cons c cs ih =>
    rw [spec_pick]
    cases hf : f c with
    | none =>
      rw [@List.filterMap_cons_none _ _ (fun x => (f x).map (fun s => (s, x))) c cs
        (by dsimp only; rw [hf]; rfl)]
      exact ih
    | some s =>
      rw [@List.filterMap_cons_some _ _ (fun x => (f x).map (fun s => (s, x))) c cs (s, c)
        (by dsimp only; rw [hf]; rfl)]
      dsimp only
      rw [sSort_cons]
      cases hE : sSort (fun a b => le a.1 b.1)
          (cs.filterMap (fun c => (f c).map (fun s => (s, c)))) with
      | nil =>
        have hpick : spec_pick le f cs = none := by rw [← ih, hE]; rfl
        rw [spec_pick_go_eq le htot htrans f cs (s, c), hpick]
        rfl
      | cons p T =>
        have hpick : spec_pick le f cs = some p := by rw [← ih, hE]; rfl
        rw [spec_pick_go_eq le htot htrans f cs (s, c), hpick]
        rw [sInsert_cons]
        dsimp only
        by_cases hc : le s p.1 = true
        · rw [if_pos hc]
          have hval : (le p.1 s && !(le s p.1)) = false := by
            rw [hc]
            simp
          rw [hval]
          rfl
        · rw [if_neg hc]
          have h1 : le p.1 s = true := by
            rcases htot s p.1 with h2 | h2
            · exact absurd h2 hc
            · exact h2
          have h2 : le s p.1 = false := by
            cases h3 : le s p.1 with
            | false => rfl
            | true => exact absurd h3 hc
          have hval : (le p.1 s && !(le s p.1)) = true := by
            rw [h1, h2]
            rfl
          rw [hval]
          rfl

/-! ### The two selection functions as first-minimum picks -/

/-- Modelled from the spec: the fallback score of an eligible caregiver for
a visit, (-travel_bonus, current hours); none when ineligible. -/
def spec_fallback_score (visit : Visit) (st : Ledger) (caregiver : Caregiver) :
    Option (ℤ × ℚ) :=
  if is_caregiver_eligible_for_visit caregiver visit (st.hours caregiver.id)
      (st.daily caregiver.id) then
    some (-(travel_bonus_for st caregiver visit : ℤ), st.hours caregiver.id)
  else none

theorem head_map_snd {σ α : Type} (l : List (σ × α)) :
    (match l with
      | [] => (none : Option α)
      | p :: _ => some p.2) = l.head?.map (fun p => p.2) := by
  cases l <;> rfl

theorem find_best_for_visit_eq_spec_pick (visit : Visit) (caregivers : List Caregiver)
    (st : Ledger) :
    find_best_caregiver_for_visit visit caregivers st =
      spec_pick_first_min pair_le (spec_fallback_score visit st) caregivers := by
  have hg : (fun caregiver =>
      if is_caregiver_eligible_for_visit caregiver visit (st.hours caregiver.id)
          (st.daily caregiver.id) then
        some ((-(travel_bonus_for st caregiver visit : ℤ), st.hours caregiver.id), caregiver)
      else none) =
      (fun c => (spec_fallback_score visit st c).map (fun s => (s, c))) := by
    funext c
    unfold spec_fallback_score
    by_cases h : is_caregiver_eligible_for_visit c visit (st.hours c.id) (st.daily c.id) = true
    · rw [if_pos h, if_pos h]
      rfl
    · rw [if_neg h, if_neg h]
      rfl
  unfold find_best_caregiver_for_visit spec_pick_first_min
  rw [hg]
  dsimp only
  rw [← sSort_filterMap_head_eq pair_le pair_le_total pair_le_trans
    (spec_fallback_score visit st) caregivers]
  cases hs : sSort (fun a b => pair_le a.1 b.1)
      (caregivers.filterMap (fun c => (spec_fallback_score visit st c).map (fun s => (s, c)))) with
  | nil => rfl
  | cons p t => rfl

theorem find_best_loop_char (customer : ℕ) (customer_visits : List Visit) :
    ∀ (cs : List Caregiver) (st : Ledger),
      find_best_loop customer customer_visits cs st =
        (cs.filterMap (fun c =>
          (block_score customer customer_visits st c).map (fun s => (s, c))), st) := by
  intro cs
  induction cs with
  | nil => intro st; rfl
  | cons c cs ih =>
    intro st
    rw [find_best_loop]
    cases hsim : simulate_block c customer_visits (st.hours c.id) (st.daily c.id) with
    | none =>
      dsimp only
      rw [ih st,
        @List.filterMap_cons_none _ _
          (fun x => (block_score customer customer_visits st x).map (fun s => (s, x))) c cs
          (by dsimp only; unfold block_score; rw [hsim]; rfl)]
    | some r =>
      dsimp only
      rw [ih st,
        @List.filterMap_cons_some _ _
          (fun x => (block_score customer customer_visits st x).map (fun s => (s, x))) c cs
          ((total_switches r.2, st.hours c.id,
            -(continuity_bonus customer (st.daily c.id) : ℤ)), c)
          (by dsimp only; unfold block_score; rw [hsim]; rfl)]

theorem find_best_for_customer_eq_spec_pick (customer : ℕ) (customer_visits : List Visit)
    (caregivers : List Caregiver) (st : Ledger) :
    find_best_caregiver_for_customer customer customer_visits caregivers st =
      (spec_pick_first_min score_le (block_score customer customer_visits st) caregivers,
        st) := by
  unfold find_best_caregiver_for_customer
  rw [find_best_loop_char]
  dsimp only
  rw [show (match sSort (fun a b => score_le a.1 b.1)
      (caregivers.filterMap (fun c =>
        (block_score customer customer_visits st c).map (fun s => (s, c)))) with
    | [] => ((none : Option Caregiver), st)
    | p :: _ => (some p.2, st)) =
    ((sSort (fun a b => score_le a.1 b.1)
      (caregivers.filterMap (fun c =>
        (block_score customer customer_visits st c).map (fun s => (s, c))))).head?.map
          (fun p => p.2), st) from by
      cases hs : sSort (fun a b => score_le a.1 b.1)
        (caregivers.filterMap (fun c =>
          (block_score customer customer_visits st c).map (fun s => (s, c)))) <;> rfl]
  rw [sSort_filterMap_head_eq score_le score_le_total score_le_trans]
  rfl

/-- The candidate search never changes the threaded ledger. -/
theorem find_best_for_customer_frame (customer : ℕ) (customer_visits : List Visit)
    (caregivers : List Caregiver) (st : Ledger) :
    (find_best_caregiver_for_customer customer customer_visits caregivers st).2 = st := by
  rw [find_best_for_customer_eq_spec_pick]

/-! ### The route ordering permutes its input -/

theorem min_by_start_mem (vs : List Visit) : ∀ v : Visit, min_by_start v vs ∈ v :: vs := by
  induction vs with
  | nil =>
    intro v
    simp [min_by_start]
  | cons w ws ih =>
    intro v
    unfold min_by_start
    rw [List.foldl_cons]
    by_cases h : w.start < v.start
    · rw [if_pos h]
      exact List.mem_cons_of_mem v (ih w)
    · rw [if_neg h]
      have h3 := ih v
      unfold min_by_start at h3
      rcases List.mem_cons.1 h3 with h2 | h2
      · rw [h2]
        exact List.mem_cons_self _ _
      · exact List.mem_cons_of_mem v (List.mem_cons_of_mem w h2)

theorem route_next_mem (current t : Visit) (ts : List Visit) :
    route_next current t ts ∈ t :: ts := by
  unfold route_next
  cases h1 : (t :: ts).filter (fun v =>
      v.neighborhood = current.neighborhood && decide (current.«end» ≤ v.start)) with
  | cons n ns =>
    dsimp only
    have h2 : min_by_start n ns ∈ n :: ns := min_by_start_mem ns n
    have h3 : min_by_start n ns ∈ (t :: ts).filter (fun v =>
        v.neighborhood = current.neighborhood && decide (current.«end» ≤ v.start)) := by
      rw [h1]
      exact h2
    exact List.mem_of_mem_filter h3
  | nil =>
    dsimp only
    cases h4 : (t :: ts).filter (fun v => decide (current.«end» ≤ v.start)) with
    | cons n ns =>
      dsimp only
      have h2 : min_by_start n ns ∈ n :: ns := min_by_start_mem ns n
      have h3 : min_by_start n ns ∈ (t :: ts).filter
          (fun v => decide (current.«end» ≤ v.start)) := by
        rw [h4]
        exact h2
      exact List.mem_of_mem_filter h3
    | nil =>
      dsimp only
      exact min_by_start_mem ts t

theorem route_loop_perm : ∀ (fuel : ℕ) (current : Visit) (to_assign : List Visit),
    to_assign.length ≤ fuel → (route_loop current to_assign fuel).Perm to_assign := by
  intro fuel
  induction fuel with
  | zero =>
    intro current to_assign h
    have h2 : to_assign = [] := List.length_eq_zero.1 (Nat.le_zero.1 h)
    rw [h2]
    exact List.Perm.refl _
  | succ fuel ih =>
    intro current to_assign h
    cases to_assign with
    | nil => exact List.Perm.refl _
    | cons t ts =>
      have hmem : route_next current t ts ∈ t :: ts := route_next_mem current t ts
      have hlen : ((t :: ts).erase (route_next current t ts)).length ≤ fuel := by
        rw [List.length_erase_of_mem hmem]
        simp only [List.length_cons] at h ⊢
        omega
      have hperm := ih (route_next current t ts) ((t :: ts).erase (route_next current t ts)) hlen
      exact (hperm.cons (route_next current t ts)).trans (List.perm_cons_erase hmem).symm

theorem route_order_day_perm (day_visits : List Visit) :
    (route_order_day day_visits).Perm day_visits := by
  cases day_visits with
  | nil => exact List.Perm.refl _
  | cons a rest =>
    have hmem : min_by_start a rest ∈ a :: rest := min_by_start_mem rest a
    have hlen : ((a :: rest).erase (min_by_start a rest)).length ≤ (a :: rest).length := by
      rw [List.length_erase_of_mem hmem]
      exact Nat.sub_le _ _
    have hperm := route_loop_perm (a :: rest).length (min_by_start a rest)
      ((a :: rest).erase (min_by_start a rest)) hlen
    exact (hperm.cons (min_by_start a rest)).trans (List.perm_cons_erase hmem).symm

theorem ordered_visits_of_perm (visits : List Visit) :
    (ordered_visits_of visits).Perm visits := by
  unfold ordered_visits_of
  have h1 : ∀ L : List (ℤ × List Visit),
      ((L.map (fun p => route_order_day p.2)).flatten).Perm
        ((L.map (fun p => p.2)).flatten) := by
    intro L
    induction L with
    | nil => exact List.Perm.refl _
    | cons p rest ih =>
      simp only [List.map_cons, List.flatten_cons]
      exact (route_order_day_perm p.2).append ih
  exact (h1 _).trans (dgroup_flatten_perm (fun v => weekday v.start) visits)

/-- The list of visits that a block commit walks through, in order. -/
theorem commit_list_perm (visits : List Visit) :
    (sSort startLe (ordered_visits_of visits)).Perm visits :=
  (sSort_perm startLe _).trans (ordered_visits_of_perm visits)

/-! ### Small facts about overlaps, eligibility and the assignment act -/

theorem overlaps_symm (v w : Visit) : v.overlaps w = w.overlaps v := by
  unfold Visit.overlaps
  exact Bool.and_comm _ _

theorem any_eq_false_forall {α : Type} {p : α → Bool} {l : List α} (h : l.any p = false) :
    ∀ u ∈ l, p u = false := by
  intro u hu
  cases hp : p u with
  | false => rfl
  | true =>
    have h2 : l.any p = true := List.any_eq_true.2 ⟨u, hu, hp⟩
    rw [h] at h2
    exact absurd h2 (by simp)

/-- What a successful eligibility check guarantees. -/
theorem eligible_elim {caregiver : Caregiver} {visit : Visit} {current_hours : ℚ}
    {daily_visits : List (ℤ × List Visit)}
    (h : is_caregiver_eligible_for_visit caregiver visit current_hours daily_visits = true) :
    visit.required_skill ∈ caregiver.skills ∧
      (∃ w ∈ caregiver.availability, w.check_availability visit = true) ∧
      (∀ u ∈ dlookup daily_visits (weekday visit.start), visit.overlaps u = false) ∧
      current_hours + visit_hours visit ≤ caregiver.max_hours := by
  unfold is_caregiver_eligible_for_visit at h
  by_cases h1 : visit.required_skill ∉ caregiver.skills
  · rw [if_pos h1] at h
    exact absurd h (by simp)
  · rw [if_neg h1] at h
    by_cases h2 : (!(caregiver.availability.any fun av => av.check_availability visit)) = true
    · rw [if_pos h2] at h
      exact absurd h (by simp)
    · rw [if_neg h2] at h
      by_cases h3 : (dlookup daily_visits (weekday visit.start)).any
          (fun v => visit.overlaps v) = true
      · rw [if_pos h3] at h
        exact absurd h (by simp)
      · rw [if_neg h3] at h
        by_cases h4 : caregiver.max_hours < current_hours + visit_hours visit
        · rw [if_pos h4] at h
          exact absurd h (by simp)
        · refine ⟨not_not.1 h1, ?_, ?_, le_of_not_lt h4⟩
          · have h5 : (caregiver.availability.any fun av => av.check_availability visit) =
                true := by
              cases hb : caregiver.availability.any fun av => av.check_availability visit with
              | true => rfl
              | false => rw [hb] at h2; exact absurd rfl h2
            exact List.any_eq_true.1 h5
          · have h6 : (dlookup daily_visits (weekday visit.start)).any
                (fun v => visit.overlaps v) = false := by
              cases hb : (dlookup daily_visits (weekday visit.start)).any
                  (fun v => visit.overlaps v) with
              | false => rfl
              | true => exact absurd hb h3
            exact any_eq_false_forall h6

theorem dlookup_bucket {κ β : Type} [DecidableEq κ] (m : List (κ × List β)) (k : κ) :
    dlookup m k = [] ∨ ∃ p ∈ m, p.1 = k ∧ dlookup m k = p.2 := by
  induction m with
  | nil => exact Or.inl rfl
  | cons q rest ih =>
    by_cases h : q.1 = k
    · right
      exact ⟨q, List.mem_cons_self _ _, h, by rw [dlookup, if_pos h]⟩
    · rw [dlookup, if_neg h]
      rcases ih with h2 | ⟨p, hp, hp1, hp2⟩
      · exact Or.inl h2
      · exact Or.inr ⟨p, List.mem_cons_of_mem _ hp, hp1, hp2⟩

theorem nodup_map_inj {α β : Type} (f : α → β) :
    ∀ (l : List α), (l.map f).Nodup →
      ∀ a b, a ∈ l → b ∈ l → f a = f b → a = b := by
  intro l
  induction l with
  | nil => intro _ a b ha; exact absurd ha (by simp)
  | cons x xs ih =>
    intro hnd a b ha hb hf
    rw [List.map_cons, List.nodup_cons] at hnd
    obtain ⟨hx, hnd2⟩ := hnd
    rcases List.mem_cons.1 ha with rfl | ha2
    · rcases List.mem_cons.1 hb with rfl | hb2
      · rfl
      · exact absurd (hf ▸ List.mem_map_of_mem f hb2) hx
    · rcases List.mem_cons.1 hb with rfl | hb2
      · exact absurd (hf ▸ List.mem_map_of_mem f ha2) hx
      · exact ih hnd2 a b ha2 hb2 hf

theorem mem_of_mem_dgroup {κ β : Type} [DecidableEq κ] (key : β → κ) (l : List β)
    (p : κ × List β) (hp : p ∈ dgroup key l) (v : β) (hv : v ∈ p.2) : v ∈ l := by
  have h1 : v ∈ ((dgroup key l).map (fun p => p.2)).flatten :=
    List.mem_flatten.2 ⟨p.2, List.mem_map_of_mem _ hp, hv⟩
  exact (dgroup_flatten_perm key l).mem_iff.1 h1

theorem hoursSum_perm {l₁ l₂ : List Visit} (h : l₁.Perm l₂) : hoursSum l₁ = hoursSum l₂ :=
  (h.map visit_hours).sum_eq

theorem hoursSum_append (l : List Visit) (v : Visit) :
    hoursSum (l ++ [v]) = hoursSum l + visit_hours v := by
  unfold hoursSum
  rw [List.map_append, List.sum_append]
  simp

theorem assign_visit_assignments (st : SolveState) (v : Visit) (c : Caregiver) :
    (assign_visit st v c).assignments =
      st.assignments ++ [{ visit_id := v.id, caregiver_id := c.id }] := rfl

theorem assign_visit_hours_self (st : SolveState) (v : Visit) (c : Caregiver) :
    (assign_visit st v c).ledger.hours c.id = st.ledger.hours c.id + visit_hours v := by
  unfold assign_visit
  simp

theorem assign_visit_hours_ne (st : SolveState) (v : Visit) (c : Caregiver) (i : ℕ)
    (h : i ≠ c.id) : (assign_visit st v c).ledger.hours i = st.ledger.hours i := by
  unfold assign_visit
  simp [h]

theorem assign_visit_daily_self (st : SolveState) (v : Visit) (c : Caregiver) :
    (assign_visit st v c).ledger.daily c.id =
      dappend (st.ledger.daily c.id) (weekday v.start) v := by
  unfold assign_visit
  simp

theorem assign_visit_daily_ne (st : SolveState) (v : Visit) (c : Caregiver) (i : ℕ)
    (h : i ≠ c.id) : (assign_visit st v c).ledger.daily i = st.ledger.daily i := by
  unfold assign_visit
  simp [h]

theorem assignedVisits_assign_self (st : SolveState) (v : Visit) (c : Caregiver) :
    (assignedVisits (assign_visit st v c).ledger c.id).Perm
      (assignedVisits st.ledger c.id ++ [v]) := by
  unfold assignedVisits
  rw [assign_visit_daily_self]
  exact flatten_dappend_perm _ _ _

theorem assignedVisits_assign_ne (st : SolveState) (v : Visit) (c : Caregiver) (i : ℕ)
    (h : i ≠ c.id) :
    assignedVisits (assign_visit st v c).ledger i = assignedVisits st.ledger i := by
  unfold assignedVisits
  rw [assign_visit_daily_ne st v c i h]

/-! ### The state invariant of a solve run -/

/-- Everything the solver's state guarantees at each point of a run: every
emitted pair names an input visit and an input caregiver with matching
skill, availability and a passed eligibility check, and is recorded in the
ledger; the ledger day maps have distinct keys, bucket visits on their own
weekday, hold no overlapping pair inside a bucket, record only input
visits; hours agree with the recorded durations and respect the cap. -/
structure Inv (visits : List Visit) (caregivers : List Caregiver) (st : SolveState) :
    Prop where
  pairs : ∀ a ∈ st.assignments, ∃ v, v ∈ visits ∧ ∃ c, c ∈ caregivers ∧
    a.visit_id = v.id ∧ a.caregiver_id = c.id ∧
    v.required_skill ∈ c.skills ∧
    (∃ w ∈ c.availability, w.check_availability v = true) ∧
    (∃ hrs dly, is_caregiver_eligible_for_visit c v hrs dly = true) ∧
    v ∈ assignedVisits st.ledger c.id
  keysN : ∀ cid, ((st.ledger.daily cid).map Prod.fst).Nodup
  daysKey : ∀ cid, ∀ p ∈ st.ledger.daily cid, ∀ v ∈ p.2, weekday v.start = p.1
  dayNoOver : ∀ cid, ∀ p ∈ st.ledger.daily cid,
    p.2.Pairwise (fun x y => x.overlaps y = false)
  memV : ∀ cid, ∀ v ∈ assignedVisits st.ledger cid, v ∈ visits
  hoursEq : ∀ cid, st.ledger.hours cid = hoursSum (assignedVisits st.ledger cid)
  hoursLe : ∀ c, c ∈ caregivers → assignedVisits st.ledger c.id ≠ [] →
    st.ledger.hours c.id ≤ c.max_hours

theorem inv_initial (visits : List Visit) (caregivers : List Caregiver) :
    Inv visits caregivers
      { assignments := [], ledger := { hours := fun _ => 0, daily := fun _ => [] } } := by
  refine ⟨?_, ?_, ?_, ?_, ?_, ?_, ?_⟩
  · intro a ha
    exact absurd ha (by simp)
  · intro cid
    exact List.Pairwise.nil
  · intro cid p hp
    exact absurd hp (by simp)
  · intro cid p hp
    exact absurd hp (by simp)
  · intro cid v hv
    exact absurd hv (by simp [assignedVisits])
  · intro cid
    simp [assignedVisits, hoursSum]
  · intro c _ h
    exact absurd rfl h

/-- One eligible assignment act preserves the invariant. -/
theorem inv_assign {visits : List Visit} {caregivers : List Caregiver} {st : SolveState}
    (hInv : Inv visits caregivers st)
    (hcg : (caregivers.map Caregiver.id).Nodup)
    {c : Caregiver} (hc : c ∈ caregivers) {v : Visit} (hv : v ∈ visits)
    (helig : is_caregiver_eligible_for_visit c v (st.ledger.hours c.id)
      (st.ledger.daily c.id) = true) :
    Inv visits caregivers (assign_visit st v c) := by
  obtain ⟨hskill, havail, hnoover, hcap⟩ := eligible_elim helig
  have hmemnew : v ∈ assignedVisits (assign_visit st v c).ledger c.id := by
    rw [(assignedVisits_assign_self st v c).mem_iff]
    exact List.mem_append.2 (Or.inr (by simp))
  refine ⟨?_, ?_, ?_, ?_, ?_, ?_, ?_⟩
  · intro a ha
    rw [assign_visit_assignments, List.mem_append] at ha
    rcases ha with ha | ha
    · obtain ⟨v2, hv2, c2, hc2, h1, h2, h3, h4, h5, h6⟩ := hInv.pairs a ha
      refine ⟨v2, hv2, c2, hc2, h1, h2, h3, h4, h5, ?_⟩
      by_cases hid : c2.id = c.id
      · rw [hid, (assignedVisits_assign_self st v c).mem_iff]
        rw [hid] at h6
        exact List.mem_append.2 (Or.inl h6)
      · rw [assignedVisits_assign_ne st v c c2.id hid]
        exact h6
    · rw [List.mem_singleton] at ha
      subst ha
      exact ⟨v, hv, c, hc, rfl, rfl, hskill, havail,
        ⟨st.ledger.hours c.id, st.ledger.daily c.id, helig⟩, hmemnew⟩
  · intro cid
    by_cases hid : cid = c.id
    · rw [hid, assign_visit_daily_self]
      exact nodup_map_fst_dappend _ _ _ (hInv.keysN c.id)
    · rw [assign_visit_daily_ne st v c cid hid]
      exact hInv.keysN cid
  · intro cid p hp v2 hv2
    by_cases hid : cid = c.id
    · rw [hid, assign_visit_daily_self] at hp
      rcases mem_dappend _ _ _ p hp with h1 | ⟨h1, h2⟩
      · exact hInv.daysKey c.id p h1 v2 hv2
      · rw [h2, List.mem_append] at hv2
        rcases hv2 with h3 | h3
        · obtain ⟨q, hq, hq1, hq2⟩ := exists_of_mem_dlookup h3
          rw [h1, ← hq1]
          exact hInv.daysKey c.id q hq v2 hq2
        · rw [List.mem_singleton] at h3
          subst h3
          rw [h1]
    · rw [assign_visit_daily_ne st v c cid hid] at hp
      exact hInv.daysKey cid p hp v2 hv2
  · intro cid p hp
    by_cases hid : cid = c.id
    · rw [hid, assign_visit_daily_self] at hp
      rcases mem_dappend _ _ _ p hp with h1 | ⟨h1, h2⟩
      · exact hInv.dayNoOver c.id p h1
      · rw [h2]
        rw [List.pairwise_append]
        refine ⟨?_, by simp, ?_⟩
        · rcases dlookup_bucket (st.ledger.daily c.id) (weekday v.start) with h3 | h3
          · rw [h3]
            exact List.Pairwise.nil
          · obtain ⟨q, hq, hq1, hq2⟩ := h3
            rw [hq2]
            exact hInv.dayNoOver c.id q hq
        · intro a ha b hb
          rw [List.mem_singleton] at hb
          subst hb
          rw [overlaps_symm]
          exact hnoover a ha
    · rw [assign_visit_daily_ne st v c cid hid] at hp
      exact hInv.dayNoOver cid p hp
  · intro cid v2 hv2
    by_cases hid : cid = c.id
    · rw [hid, (assignedVisits_assign_self st v c).mem_iff, List.mem_append] at hv2
      rcases hv2 with h1 | h1
      · exact hInv.memV c.id v2 h1
      · rw [List.mem_singleton] at h1
        subst h1
        exact hv
    · rw [assignedVisits_assign_ne st v c cid hid] at hv2
      exact hInv.memV cid v2 hv2
  · intro cid
    by_cases hid : cid = c.id
    · rw [hid, assign_visit_hours_self,
        hoursSum_perm (assignedVisits_assign_self st v c), hoursSum_append,
        hInv.hoursEq c.id]
    · rw [assign_visit_hours_ne st v c cid hid, assignedVisits_assign_ne st v c cid hid]
      exact hInv.hoursEq cid
  · intro c2 hc2 hne
    by_cases hid : c2.id = c.id
    · have hceq : c2 = c := nodup_map_inj Caregiver.id caregivers hcg c2 c hc2 hc hid
      subst hceq
      rw [assign_visit_hours_self]
      exact hcap
    · rw [assign_visit_hours_ne st v c c2.id hid]
      rw [assignedVisits_assign_ne st v c c2.id hid] at hne
      exact hInv.hoursLe c2 hc2 hne

/-- Committing a block whose simulation from the current ledger entries
succeeded preserves the invariant: the simulation walks exactly the states
the commits create. -/
theorem simulate_commit {visits : List Visit} {caregivers : List Caregiver}
    (hcg : (caregivers.map Caregiver.id).Nodup) {c : Caregiver} (hc : c ∈ caregivers) :
    ∀ (vs : List Visit) (st : SolveState), Inv visits caregivers st →
      (∀ v ∈ vs, v ∈ visits) →
      ∀ r, simulate_block c vs (st.ledger.hours c.id) (st.ledger.daily c.id) = some r →
      Inv visits caregivers (vs.foldl (fun s v => assign_visit s v c) st) := by
  intro vs
  induction vs with
  | nil =>
    intro st hInv _ r _
    simpa using hInv
  | cons v rest ih =>
    intro st hInv hmem r hsim
    rw [simulate_block] at hsim
    by_cases helig : is_caregiver_eligible_for_visit c v (st.ledger.hours c.id)
        (st.ledger.daily c.id) = true
    · rw [if_pos helig] at hsim
      have hInv2 := inv_assign hInv hcg hc (hmem v (List.mem_cons_self _ _)) helig
      rw [List.foldl_cons]
      refine ih (assign_visit st v c) hInv2
        (fun w hw => hmem w (List.mem_cons_of_mem _ hw)) r ?_
      rw [assign_visit_hours_self, assign_visit_daily_self]
      exact hsim
    · rw [if_neg helig] at hsim
      exact absurd hsim (by simp)

/-- Along a successful simulation, a later visit of the block never
overlaps a visit already in its weekday bucket. -/
theorem simulate_block_no_overlap (c : Caregiver) :
    ∀ (vs : List Visit) (th : ℚ) (td : List (ℤ × List Visit)) (r : ℚ × List (ℤ × List Visit)),
      simulate_block c vs th td = some r →
      ∀ (k : ℤ) (u : Visit), u ∈ dlookup td k →
        ∀ y ∈ vs, weekday y.start = k → y.overlaps u = false := by
  intro vs
  induction vs with
  | nil =>
    intro th td r _ k u _ y hy
    exact absurd hy (by simp)
  | cons v rest ih =>
    intro th td r hsim k u hu y hy hk
    rw [simulate_block] at hsim
    by_cases helig : is_caregiver_eligible_for_visit c v th td = true
    · rw [if_pos helig] at hsim
      rcases List.mem_cons.1 hy with rfl | hy2
      · obtain ⟨_, _, hnoover, _⟩ := eligible_elim helig
        rw [hk] at hnoover
        exact hnoover u hu
      · refine ih _ _ r hsim k u ?_ y hy2 hk
        by_cases hkk : k = weekday v.start
        · rw [hkk, dlookup_dappend_self]
          rw [hkk] at hu
          exact List.mem_append.2 (Or.inl hu)
        · rw [dlookup_dappend_ne _ _ _ _ hkk]
          exact hu
    · rw [if_neg helig] at hsim
      exact absurd hsim (by simp)

/-- A successful whole-block simulation certifies that no later visit of
the block overlaps an earlier one landing on the same weekday. -/
theorem simulate_block_pairwise (c : Caregiver) :
    ∀ (vs : List Visit) (th : ℚ) (td : List (ℤ × List Visit)) (r : ℚ × List (ℤ × List Visit)),
      simulate_block c vs th td = some r →
      vs.Pairwise (fun x y => weekday x.start = weekday y.start → y.overlaps x = false) := by
  intro vs
  induction vs with
  | nil =>
    intro th td r _
    exact List.Pairwise.nil
  | cons v rest ih =>
    intro th td r hsim
    rw [simulate_block] at hsim
    by_cases helig : is_caregiver_eligible_for_visit c v th td = true
    · rw [if_pos helig] at hsim
      refine List.pairwise_cons.2 ⟨?_, ih _ _ r hsim⟩
      intro y hy hweek
      refine simulate_block_no_overlap c rest _ _ r hsim (weekday v.start) v ?_ y hy hweek.symm
      rw [dlookup_dappend_self]
      exact List.mem_append.2 (Or.inr (by simp))
    · rw [if_neg helig] at hsim
      exact absurd hsim (by simp)

/-- Two permuted lists that are both strictly sorted by start coincide. -/
theorem perm_strict_sorted_eq :
    ∀ (l₁ l₂ : List Visit), l₁.Perm l₂ →
      l₁.Pairwise (fun a b => a.start < b.start) →
      l₂.Pairwise (fun a b => a.start < b.start) → l₁ = l₂ := by
  intro l₁
  induction l₁ with
  | nil =>
    intro l₂ hperm _ _
    exact List.Perm.nil_eq hperm
  | cons a t₁ ih =>
    intro l₂ hperm h₁ h₂
    cases l₂ with
    | nil => exact absurd (List.Perm.nil_eq hperm.symm) (by simp)
    | cons b t₂ =>
      rw [List.pairwise_cons] at h₁ h₂
      by_cases hab : a = b
      · subst hab
        rw [ih t₂ hperm.cons_inv h₁.2 h₂.2]
      · have hamem : a ∈ b :: t₂ := hperm.mem_iff.1 (List.mem_cons_self _ _)
        have hbmem : b ∈ a :: t₁ := hperm.mem_iff.2 (List.mem_cons_self _ _)
        have ha2 : a ∈ t₂ := by
          rcases List.mem_cons.1 hamem with h | h
          · exact absurd h hab
          · exact h
        have hb2 : b ∈ t₁ := by
          rcases List.mem_cons.1 hbmem with h | h
          · exact absurd h.symm hab
          · exact h
        have h3 := h₁.1 b hb2
        have h4 := h₂.1 a ha2
        exact absurd (h3.trans h4) (lt_irrefl _)

/-- When a block simulation from any scratch state succeeds and the block
list is sorted by start with positive durations, the start-sorted route
ordering that the commit walks is the block list itself. -/
theorem commit_eq_of_sim {visits : List Visit}
    (hpos : ∀ v ∈ visits, v.start < v.«end») {c : Caregiver} {vs : List Visit}
    {th : ℚ} {td : List (ℤ × List Visit)} {r : ℚ × List (ℤ × List Visit)}
    (hvs : ∀ v ∈ vs, v ∈ visits)
    (hsorted : vs.Pairwise (fun a b => startLe a b = true))
    (hsim : simulate_block c vs th td = some r) :
    sSort startLe (ordered_visits_of vs) = vs := by
  have hover := simulate_block_pairwise c vs th td r hsim
  have hstrict : vs.Pairwise (fun a b => a.start < b.start) := by
    refine (hsorted.and hover).imp_of_mem ?_
    intro x y hx hy hxy
    obtain ⟨hle, himp⟩ := hxy
    rw [startLe, decide_eq_true_eq] at hle
    rcases lt_or_eq_of_le hle with h | h
    · exact h
    · exfalso
      have hweek : weekday x.start = weekday y.start := by rw [h]
      have hnoover := himp hweek
      have h1 : y.start < x.«end» := by
        rw [← h]
        exact hpos x (hvs x hx)
      have h2 : x.start < y.«end» := by
        rw [h]
        exact hpos y (hvs y hy)
      have : y.overlaps x = true := by
        unfold Visit.overlaps
        rw [decide_eq_true h2, decide_eq_true h1]
        rfl
      rw [hnoover] at this
      exact absurd this (by simp)
  have hperm := commit_list_perm vs
  have hsorted2 := sSort_pairwise startLe startLe_total startLe_trans (ordered_visits_of vs)
  have hnodup : ((sSort startLe (ordered_visits_of vs)).map
      (fun v => v.start)).Nodup := by
    have h1 : vs.Pairwise (fun a b => a.start ≠ b.start) :=
      hstrict.imp (fun h => ne_of_lt h)
    have h2 : (vs.map (fun v => v.start)).Nodup := List.pairwise_map.2 h1
    exact ((hperm.map (fun v => v.start)).nodup_iff).2 h2
  have hstrict2 : (sSort startLe (ordered_visits_of vs)).Pairwise
      (fun a b => a.start < b.start) := by
    have h1 : (sSort startLe (ordered_visits_of vs)).Pairwise
        (fun a b => a.start ≠ b.start) := List.pairwise_map.1 hnodup
    refine (hsorted2.and h1).imp ?_
    intro a b hab
    obtain ⟨hle, hne⟩ := hab
    rw [startLe, decide_eq_true_eq] at hle
    exact lt_of_le_of_ne hle hne
  exact perm_strict_sorted_eq _ _ hperm hstrict2 hstrict

/-- One fallback step preserves the invariant. -/
theorem inv_fallback_step {visits : List Visit} {caregivers : List Caregiver}
    {st : SolveState} (hInv : Inv visits caregivers st)
    (hcg : (caregivers.map Caregiver.id).Nodup) {v : Visit} (hv : v ∈ visits) :
    Inv visits caregivers (fallback_step caregivers st v) := by
  unfold fallback_step
  cases hfb : find_best_caregiver_for_visit v caregivers st.ledger with
  | none => exact hInv
  | some chosen =>
    rw [find_best_for_visit_eq_spec_pick] at hfb
    unfold spec_pick_first_min at hfb
    cases hp : spec_pick pair_le (spec_fallback_score v st.ledger) caregivers with
    | none =>
      rw [hp] at hfb
      exact absurd hfb (by simp)
    | some q =>
      rw [hp] at hfb
      have hq2 : q.2 = chosen := by
        simpa using hfb
      obtain ⟨hqmem, hqscore⟩ := spec_pick_mem pair_le _ caregivers q hp
      unfold spec_fallback_score at hqscore
      by_cases helig : is_caregiver_eligible_for_visit q.2 v (st.ledger.hours q.2.id)
          (st.ledger.daily q.2.id) = true
      · rw [← hq2]
        exact inv_assign hInv hcg hqmem hv helig
      · rw [if_neg helig] at hqscore
        exact absurd hqscore (by simp)

/-- The whole per-visit fallback pass preserves the invariant. -/
theorem inv_fallback_foldl {visits : List Visit} {caregivers : List Caregiver}
    (hcg : (caregivers.map Caregiver.id).Nodup) :
    ∀ (vs : List Visit) (st : SolveState), Inv visits caregivers st →
      (∀ v ∈ vs, v ∈ visits) →
      Inv visits caregivers (vs.foldl (fallback_step caregivers) st) := by
  intro vs
  induction vs with
  | nil =>
    intro st h _
    simpa using h
  | cons v rest ih =>
    intro st h hmem
    rw [List.foldl_cons]
    exact ih _ (inv_fallback_step h hcg (hmem v (List.mem_cons_self _ _)))
      (fun w hw => hmem w (List.mem_cons_of_mem _ hw))

/-- One customer iteration preserves the invariant. -/
theorem inv_process_customer {visits : List Visit} {caregivers : List Caregiver}
    (hpos : ∀ v ∈ visits, v.start < v.«end»)
    (hcg : (caregivers.map Caregiver.id).Nodup) {st : SolveState} {p : ℕ × List Visit}
    (hInv : Inv visits caregivers st) (hbucket : ∀ v ∈ p.2, v ∈ visits) :
    Inv visits caregivers (process_customer caregivers st p) := by
  have hvs : ∀ v ∈ sSort startLe p.2, v ∈ visits := by
    intro v hv
    exact hbucket v ((mem_sSort startLe p.2 v).1 hv)
  unfold process_customer
  dsimp only
  rw [find_best_for_customer_eq_spec_pick]
  cases hpick : spec_pick_first_min score_le
      (block_score p.1 (sSort startLe p.2) st.ledger) caregivers with
  | none =>
    dsimp only
    exact inv_fallback_foldl hcg (sSort startLe p.2) st hInv hvs
  | some chosen =>
    dsimp only
    unfold spec_pick_first_min at hpick
    cases hq : spec_pick score_le (block_score p.1 (sSort startLe p.2) st.ledger)
        caregivers with
    | none =>
      rw [hq] at hpick
      exact absurd hpick (by simp)
    | some q =>
      rw [hq] at hpick
      have hq2 : q.2 = chosen := by simpa using hpick
      obtain ⟨hqmem, hqscore⟩ := spec_pick_mem score_le _ caregivers q hq
      unfold block_score at hqscore
      cases hsim : simulate_block q.2 (sSort startLe p.2) (st.ledger.hours q.2.id)
          (st.ledger.daily q.2.id) with
      | none =>
        rw [hsim] at hqscore
        exact absurd hqscore (by simp)
      | some r =>
        have hsorted := sSort_pairwise startLe startLe_total startLe_trans p.2
        have hcommit := commit_eq_of_sim hpos hvs hsorted hsim
        rw [← hq2]
        unfold assign_all_visits_to_caregiver
        rw [hcommit]
        exact simulate_commit hcg hqmem (sSort startLe p.2) st hInv hvs r hsim

/-- The invariant holds of the final state of every run. -/
theorem inv_run_solve (visits : List Visit) (caregivers : List Caregiver)
    (hpos : ∀ v ∈ visits, v.start < v.«end»)
    (hcg : (caregivers.map Caregiver.id).Nodup) :
    Inv visits caregivers (run_solve visits caregivers) := by
  unfold run_solve group_visits_by_customer
  have haux : ∀ (buckets : List (ℕ × List Visit)) (st : SolveState),
      Inv visits caregivers st → (∀ p ∈ buckets, ∀ v ∈ p.2, v ∈ visits) →
      Inv visits caregivers (buckets.foldl (process_customer caregivers) st) := by
    intro buckets
    induction buckets with
    | nil =>
      intro st h _
      simpa using h
    | cons p rest ih =>
      intro st h hmem
      rw [List.foldl_cons]
      exact ih _ (inv_process_customer hpos hcg h (hmem p (List.mem_cons_self _ _)))
        (fun q hq => hmem q (List.mem_cons_of_mem _ hq))
  exact haux _ _ (inv_initial visits caregivers)
    (fun p hp v hv => mem_of_mem_dgroup (fun v => v.customer) visits p hp v hv)

/-- Across all days of one caregiver's ledger, any two recorded visits on
the same calendar day do not overlap. -/
theorem assignedVisits_calendar_pairwise {visits : List Visit}
    {caregivers : List Caregiver} {st : SolveState} (hInv : Inv visits caregivers st)
    (cid : ℕ) :
    (assignedVisits st.ledger cid).Pairwise
      (fun x y => calendarDay x.start = calendarDay y.start → x.overlaps y = false) := by
  unfold assignedVisits
  rw [List.pairwise_flatten]
  constructor
  · intro l hl
    rcases List.mem_map.1 hl with ⟨pp, hpp, hrw⟩
    rw [← hrw]
    refine List.Pairwise.imp ?_ (hInv.dayNoOver cid pp hpp)
    intro a b h hcal
    exact h
  · rw [List.pairwise_map]
    have hkeys : (st.ledger.daily cid).Pairwise (fun p q => p.1 ≠ q.1) :=
      List.pairwise_map.1 (hInv.keysN cid)
    refine hkeys.imp_of_mem ?_
    intro p q hp hq hne x hx y hy hcal
    exfalso
    have h1 : weekday x.start = p.1 := hInv.daysKey cid p hp x hx
    have h2 : weekday y.start = q.1 := hInv.daysKey cid q hq y hy
    have h3 : weekday x.start = weekday y.start := by
      unfold weekday
      unfold calendarDay at hcal
      rw [hcal]
    rw [h1, h2] at h3
    exact hne h3

/-! ### How each phase extends the output list -/

theorem subperm_append {α : Type} {l₁ l₂ r₁ r₂ : List α}
    (h₁ : l₁.Subperm r₁) (h₂ : l₂.Subperm r₂) : (l₁ ++ l₂).Subperm (r₁ ++ r₂) := by
  obtain ⟨u₁, hu₁, hs₁⟩ := h₁
  obtain ⟨u₂, hu₂, hs₂⟩ := h₂
  exact ⟨u₁ ++ u₂, hu₁.append hu₂, hs₁.append hs₂⟩

theorem subperm_nodup {α : Type} {l₁ l₂ : List α} (h : l₁.Subperm l₂) (hn : l₂.Nodup) :
    l₁.Nodup := by
  obtain ⟨u, hu, hs⟩ := h
  exact hu.nodup_iff.1 (List.Nodup.sublist hs hn)

theorem foldl_assign_assignments (c : Caregiver) :
    ∀ (vs : List Visit) (st : SolveState),
      (vs.foldl (fun s v => assign_visit s v c) st).assignments =
        st.assignments ++ vs.map (fun v => { visit_id := v.id, caregiver_id := c.id }) := by
  intro vs
  induction vs with
  | nil =>
    intro st
    simp
  | cons v rest ih =>
    intro st
    rw [List.foldl_cons, ih, assign_visit_assignments]
    simp

theorem fallback_step_none {caregivers : List Caregiver} {st : SolveState} {v : Visit}
    (h : find_best_caregiver_for_visit v caregivers st.ledger = none) :
    fallback_step caregivers st v = st := by
  unfold fallback_step
  rw [h]

theorem fallback_step_some {caregivers : List Caregiver} {st : SolveState} {v : Visit}
    {c : Caregiver} (h : find_best_caregiver_for_visit v caregivers st.ledger = some c) :
    fallback_step caregivers st v = assign_visit st v c := by
  unfold fallback_step
  rw [h]

theorem fallback_foldl_assignments (caregivers : List Caregiver) :
    ∀ (vs : List Visit) (st : SolveState),
      ∃ L, (vs.foldl (fallback_step caregivers) st).assignments = st.assignments ++ L ∧
        (L.map (fun a => a.visit_id)).Sublist (vs.map (fun v => v.id)) := by
  intro vs
  induction vs with
  | nil =>
    intro st
    exact ⟨[], by simp, by simp⟩
  | cons v rest ih =>
    intro st
    rw [List.foldl_cons]
    cases hfb : find_best_caregiver_for_visit v caregivers st.ledger with
    | none =>
      rw [fallback_step_none hfb]
      obtain ⟨L, hL1, hL2⟩ := ih st
      exact ⟨L, hL1, List.Sublist.cons _ hL2⟩
    | some chosen =>
      rw [fallback_step_some hfb]
      obtain ⟨L, hL1, hL2⟩ := ih (assign_visit st v chosen)
      refine ⟨{ visit_id := v.id, caregiver_id := chosen.id } :: L, ?_, ?_⟩
      · rw [hL1, assign_visit_assignments]
        simp
      · simp only [List.map_cons]
        exact List.Sublist.cons₂ _ hL2

theorem process_customer_assignments (caregivers : List Caregiver) (st : SolveState)
    (p : ℕ × List Visit) :
    ∃ L, (process_customer caregivers st p).assignments = st.assignments ++ L ∧
      (L.map (fun a => a.visit_id)).Subperm (p.2.map (fun v => v.id)) := by
  unfold process_customer
  dsimp only
  rw [find_best_for_customer_eq_spec_pick]
  cases hpick : spec_pick_first_min score_le
      (block_score p.1 (sSort startLe p.2) st.ledger) caregivers with
  | none =>
    dsimp only
    obtain ⟨L, h1, h2⟩ := fallback_foldl_assignments caregivers (sSort startLe p.2) st
    refine ⟨L, h1, ?_⟩
    exact h2.subperm.trans ((sSort_perm startLe p.2).map (fun v => v.id)).subperm
  | some chosen =>
    dsimp only
    unfold assign_all_visits_to_caregiver
    rw [foldl_assign_assignments]
    refine ⟨_, rfl, ?_⟩
    rw [List.map_map]
    have hperm := (commit_list_perm (sSort startLe p.2)).trans (sSort_perm startLe p.2)
    exact (hperm.map (fun v => v.id)).subperm

theorem run_solve_ids_subperm (visits : List Visit) (caregivers : List Caregiver) :
    ((run_solve visits caregivers).assignments.map (fun a => a.visit_id)).Subperm
      (visits.map (fun v => v.id)) := by
  have haux : ∀ (buckets : List (ℕ × List Visit)) (st : SolveState),
      ∃ L, (buckets.foldl (process_customer caregivers) st).assignments =
          st.assignments ++ L ∧
        (L.map (fun a => a.visit_id)).Subperm
          ((buckets.map (fun p => p.2.map (fun v => v.id))).flatten) := by
    intro buckets
    induction buckets with
    | nil =>
      intro st
      exact ⟨[], by simp, by simp⟩
    | cons p rest ih =>
      intro st
      rw [List.foldl_cons]
      obtain ⟨L₁, h11, h12⟩ := process_customer_assignments caregivers st p
      obtain ⟨L₂, h21, h22⟩ := ih (process_customer caregivers st p)
      refine ⟨L₁ ++ L₂, ?_, ?_⟩
      · rw [h21, h11, List.append_assoc]
      · rw [List.map_append, List.map_cons, List.flatten_cons]
        exact subperm_append h12 h22
  obtain ⟨L, hL1, hL2⟩ := haux (dgroup (fun v => v.customer) visits)
    { assignments := [], ledger := { hours := fun _ => 0, daily := fun _ => [] } }
  unfold run_solve group_visits_by_customer
  rw [hL1]
  simp only [List.nil_append]
  refine hL2.trans ?_
  have h1 := (dgroup_flatten_perm (fun v => v.customer) visits).map (fun v => v.id)
  rw [List.map_flatten, List.map_map] at h1
  exact h1.subperm

/-! ### Remaining support: bucket characterization and weak pair soundness -/

theorem dlookup_of_mem_nodup {κ β : Type} [DecidableEq κ] :
    ∀ (m : List (κ × List β)), (m.map Prod.fst).Nodup →
      ∀ p ∈ m, dlookup m p.1 = p.2 := by
  intro m
  induction m with
  | nil =>
    intro _ p hp
    exact absurd hp (by simp)
  | cons q rest ih =>
    intro hnd p hp
    rw [List.map_cons, List.nodup_cons] at hnd
    obtain ⟨hq, hnd2⟩ := hnd
    rcases List.mem_cons.1 hp with rfl | hp2
    · rw [dlookup, if_pos rfl]
    · have hne : q.1 ≠ p.1 := by
        intro h
        exact hq (h ▸ List.mem_map_of_mem Prod.fst hp2)
      rw [dlookup, if_neg hne]
      exact ih hnd2 p hp2

theorem dgroup_bucket_eq {κ β : Type} [DecidableEq κ] (key : β → κ) (l : List β)
    (p : κ × List β) (hp : p ∈ dgroup key l) :
    p.2 = l.filter (fun v => key v = p.1) := by
  rw [← dlookup_dgroup key l p.1]
  exact (dlookup_of_mem_nodup (dgroup key l) (dgroup_keys_nodup key l) p hp).symm

theorem simulate_block_all_eligible (c : Caregiver) :
    ∀ (vs : List Visit) (th : ℚ) (td : List (ℤ × List Visit)) (r : ℚ × List (ℤ × List Visit)),
      simulate_block c vs th td = some r →
      ∀ v ∈ vs, ∃ hrs dly, is_caregiver_eligible_for_visit c v hrs dly = true := by
  intro vs
  induction vs with
  | nil =>
    intro th td r _ v hv
    exact absurd hv (by simp)
  | cons w rest ih =>
    intro th td r hsim v hv
    rw [simulate_block] at hsim
    by_cases helig : is_caregiver_eligible_for_visit c w th td = true
    · rw [if_pos helig] at hsim
      rcases List.mem_cons.1 hv with rfl | hv2
      · exact ⟨th, td, helig⟩
      · exact ih _ _ r hsim v hv2
    · rw [if_neg helig] at hsim
      exact absurd hsim (by simp)

/-- The unconditional per-pair soundness: every emitted pair names an input
visit and an input caregiver for which some eligibility check succeeded. -/
def PairOk (visits : List Visit) (caregivers : List Caregiver) (a : Assignment) : Prop :=
  ∃ v, v ∈ visits ∧ ∃ c, c ∈ caregivers ∧ a.visit_id = v.id ∧ a.caregiver_id = c.id ∧
    ∃ hrs dly, is_caregiver_eligible_for_visit c v hrs dly = true

theorem fallback_foldl_pairok {visits : List Visit} {caregivers : List Caregiver} :
    ∀ (vs : List Visit) (st : SolveState),
      (∀ a ∈ st.assignments, PairOk visits caregivers a) → (∀ v ∈ vs, v ∈ visits) →
      ∀ a ∈ (vs.foldl (fallback_step caregivers) st).assignments,
        PairOk visits caregivers a := by
  intro vs
  induction vs with
  | nil =>
    intro st h _
    simpa using h
  | cons v rest ih =>
    intro st h hmem
    rw [List.foldl_cons]
    cases hfb : find_best_caregiver_for_visit v caregivers st.ledger with
    | none =>
      rw [fallback_step_none hfb]
      exact ih st h (fun w hw => hmem w (List.mem_cons_of_mem _ hw))
    | some chosen =>
      rw [fallback_step_some hfb]
      refine ih _ ?_ (fun w hw => hmem w (List.mem_cons_of_mem _ hw))
      intro a ha
      rw [assign_visit_assignments, List.mem_append] at ha
      rcases ha with ha | ha
      · exact h a ha
      · rw [List.mem_singleton] at ha
        subst ha
        rw [find_best_for_visit_eq_spec_pick] at hfb
        unfold spec_pick_first_min at hfb
        cases hp : spec_pick pair_le (spec_fallback_score v st.ledger) caregivers with
        | none =>
          rw [hp] at hfb
          exact absurd hfb (by simp)
        | some q =>
          rw [hp] at hfb
          have hq2 : q.2 = chosen := by simpa using hfb
          obtain ⟨hqmem, hqscore⟩ := spec_pick_mem pair_le _ caregivers q hp
          unfold spec_fallback_score at hqscore
          by_cases helig : is_caregiver_eligible_for_visit q.2 v (st.ledger.hours q.2.id)
              (st.ledger.daily q.2.id) = true
          · exact ⟨v, hmem v (List.mem_cons_self _ _), chosen, hq2 ▸ hqmem, rfl, rfl,
              st.ledger.hours q.2.id, st.ledger.daily q.2.id, hq2 ▸ helig⟩
          · rw [if_neg helig] at hqscore
            exact absurd hqscore (by simp)

theorem process_customer_pairok {visits : List Visit} {caregivers : List Caregiver}
    {st : SolveState} {p : ℕ × List Visit}
    (h : ∀ a ∈ st.assignments, PairOk visits caregivers a)
    (hbucket : ∀ v ∈ p.2, v ∈ visits) :
    ∀ a ∈ (process_customer caregivers st p).assignments, PairOk visits caregivers a := by
  have hvs : ∀ v ∈ sSort startLe p.2, v ∈ visits := by
    intro v hv
    exact hbucket v ((mem_sSort startLe p.2 v).1 hv)
  unfold process_customer
  dsimp only
  rw [find_best_for_customer_eq_spec_pick]
  cases hpick : spec_pick_first_min score_le
      (block_score p.1 (sSort startLe p.2) st.ledger) caregivers with
  | none =>
    dsimp only
    exact fallback_foldl_pairok (sSort startLe p.2) st h hvs
  | some chosen =>
    dsimp only
    unfold spec_pick_first_min at hpick
    cases hq : spec_pick score_le (block_score p.1 (sSort startLe p.2) st.ledger)
        caregivers with
    | none =>
      rw [hq] at hpick
      exact absurd hpick (by simp)
    | some q =>
      rw [hq] at hpick
      have hq2 : q.2 = chosen := by simpa using hpick
      obtain ⟨hqmem, hqscore⟩ := spec_pick_mem score_le _ caregivers q hq
      unfold block_score at hqscore
      cases hsim : simulate_block q.2 (sSort startLe p.2) (st.ledger.hours q.2.id)
          (st.ledger.daily q.2.id) with
      | none =>
        rw [hsim] at hqscore
        exact absurd hqscore (by simp)
      | some r =>
        intro a ha
        unfold assign_all_visits_to_caregiver at ha
        rw [foldl_assign_assignments, List.mem_append] at ha
        rcases ha with ha | ha
        · exact h a ha
        · rcases List.mem_map.1 ha with ⟨v, hvmem, hrw⟩
          have hvs2 : v ∈ sSort startLe p.2 :=
            (commit_list_perm (sSort startLe p.2)).mem_iff.1 hvmem
          obtain ⟨hrs, dly, helig⟩ :=
            simulate_block_all_eligible q.2 (sSort startLe p.2) _ _ r hsim v hvs2
          exact ⟨v, hvs v hvs2, chosen, hq2 ▸ hqmem, by rw [← hrw],
            by rw [← hrw], hrs, dly, hq2 ▸ helig⟩

theorem solve_pairok (visits : List Visit) (caregivers : List Caregiver) :
    ∀ a ∈ solve visits caregivers, PairOk visits caregivers a := by
  unfold solve run_solve group_visits_by_customer
  have haux : ∀ (buckets : List (ℕ × List Visit)) (st : SolveState),
      (∀ a ∈ st.assignments, PairOk visits caregivers a) →
      (∀ p ∈ buckets, ∀ v ∈ p.2, v ∈ visits) →
      ∀ a ∈ (buckets.foldl (process_customer caregivers) st).assignments,
        PairOk visits caregivers a := by
    intro buckets
    induction buckets with
    | nil =>
      intro st h _
      simpa using h
    | cons p rest ih =>
      intro st h hmem
      rw [List.foldl_cons]
      exact ih _ (process_customer_pairok h (hmem p (List.mem_cons_self _ _)))
        (fun q hq => hmem q (List.mem_cons_of_mem _ hq))
  exact haux _ _ (by simp) (fun p hp v hv => mem_of_mem_dgroup (fun v => v.customer)
    visits p hp v hv)

/-! ### Concrete example data used by witnesses and counterexamples -/

def exWindow : AvailabilityWindow := ⟨fun _ => true⟩

def exVisitA : Visit := ⟨1, 10, 0, 3600, 5, 100⟩

def exVisitB : Visit := ⟨2, 10, 3600, 7200, 5, 101⟩

def exVisitC : Visit := ⟨3, 10, 7200, 10800, 5, 100⟩

def exCaregiver : Caregiver := ⟨7, [5], [exWindow], 40⟩

/-! ### The claims -/

/-- C1: for every input whose visits satisfy end > start and whose
caregivers carry the distinct identity ids the data model promises, every
pair emitted by solve satisfies the four invariants: the visit's required
skill is among the assigned caregiver's skills, some availability window of
that caregiver covers the visit, the visit overlaps no other visit assigned
to that caregiver on the same calendar day, and the summed duration of all
visits assigned to that caregiver does not exceed its max_hours. -/
theorem solve_invariants (visits : List Visit) (caregivers : List Caregiver)
    (hpos : ∀ v ∈ visits, v.start < v.«end»)
    (hcg : (caregivers.map Caregiver.id).Nodup) :
    ∀ a ∈ solve visits caregivers, ∃ v, v ∈ visits ∧ ∃ c, c ∈ caregivers ∧
      a.visit_id = v.id ∧ a.caregiver_id = c.id ∧
      v.required_skill ∈ c.skills ∧
      (∃ w ∈ c.availability, w.check_availability v = true) ∧
      v ∈ assignedVisits (run_solve visits caregivers).ledger c.id ∧
      (assignedVisits (run_solve visits caregivers).ledger c.id).Pairwise
        (fun x y => calendarDay x.start = calendarDay y.start → x.overlaps y = false) ∧
      hoursSum (assignedVisits (run_solve visits caregivers).ledger c.id) ≤
        c.max_hours := by
  intro a ha
  have hInv := inv_run_solve visits caregivers hpos hcg
  obtain ⟨v, hv, c, hc, h1, h2, h3, h4, _, h6⟩ := hInv.pairs a ha
  have hne : assignedVisits (run_solve visits caregivers).ledger c.id ≠ [] := by
    intro hnil
    rw [hnil] at h6
    exact absurd h6 (by simp)
  refine ⟨v, hv, c, hc, h1, h2, h3, h4, h6,
    assignedVisits_calendar_pairwise hInv c.id, ?_⟩
  have h7 := hInv.hoursLe c hc hne
  rw [hInv.hoursEq c.id] at h7
  exact h7

theorem exSolve_eq : solve [exVisitA, exVisitB, exVisitC] [exCaregiver] =
    [{ visit_id := 1, caregiver_id := 7 }, { visit_id := 2, caregiver_id := 7 },
     { visit_id := 3, caregiver_id := 7 }] := by
  norm_num [solve, run_solve, group_visits_by_customer, dgroup, dappend, process_customer,
    find_best_caregiver_for_customer, find_best_loop, simulate_block,
    is_caregiver_eligible_for_visit, dlookup, weekday, visit_hours, Visit.overlaps,
    total_switches, continuity_bonus, sSort, sInsert, score_le, startLe,
    assign_all_visits_to_caregiver, ordered_visits_of, route_order_day, route_next,
    route_loop, min_by_start, assign_visit, exVisitA, exVisitB, exVisitC, exCaregiver,
    exWindow, fallback_step, find_best_caregiver_for_visit, travel_bonus_for, endLe,
    pair_le, List.erase]

/-- Witness for C1 at a concrete one-customer input, instantiated at the
first emitted pair. -/
theorem solve_invariants_witness :
    ∃ v, v ∈ [exVisitA, exVisitB, exVisitC] ∧ ∃ c, c ∈ [exCaregiver] ∧
      ({ visit_id := 1, caregiver_id := 7 } : Assignment).visit_id = v.id ∧
      ({ visit_id := 1, caregiver_id := 7 } : Assignment).caregiver_id = c.id ∧
      v.required_skill ∈ c.skills ∧
      (∃ w ∈ c.availability, w.check_availability v = true) ∧
      v ∈ assignedVisits
        (run_solve [exVisitA, exVisitB, exVisitC] [exCaregiver]).ledger c.id ∧
      (assignedVisits
          (run_solve [exVisitA, exVisitB, exVisitC] [exCaregiver]).ledger c.id).Pairwise
        (fun x y => calendarDay x.start = calendarDay y.start → x.overlaps y = false) ∧
      hoursSum (assignedVisits
        (run_solve [exVisitA, exVisitB, exVisitC] [exCaregiver]).ledger c.id) ≤
        c.max_hours :=
  solve_invariants [exVisitA, exVisitB, exVisitC] [exCaregiver] (by decide) (by decide)
    { visit_id := 1, caregiver_id := 7 } (by rw [exSolve_eq]; simp)

/-- C2: for every customer block (sorted by start, as solve prepares it),
the caregiver the code returns is exactly the first-minimum pick by the
lexicographic (switches, real pre-simulation hours, minus continuity bonus)
score over the caregivers whose whole-block simulation succeeds, ties
resolved to caregiver input-list order; when no caregiver passes, none is
returned and the customer's visits fall through to the per-visit fallback
loop of solve. -/
theorem block_selection_spec (customer : ℕ) (bucket : List Visit)
    (caregivers : List Caregiver) (led : Ledger) (st : SolveState) :
    (find_best_caregiver_for_customer customer (sSort startLe bucket) caregivers led).1 =
      spec_pick_first_min score_le (block_score customer (sSort startLe bucket) led)
        caregivers ∧
    process_customer caregivers st (customer, bucket) =
      (match spec_pick_first_min score_le
          (block_score customer (sSort startLe bucket) st.ledger) caregivers with
        | some chosen => assign_all_visits_to_caregiver st (sSort startLe bucket) chosen
        | none => (sSort startLe bucket).foldl (fallback_step caregivers) st) := by
  constructor
  · rw [find_best_for_customer_eq_spec_pick]
  · unfold process_customer
    dsimp only
    rw [find_best_for_customer_eq_spec_pick]
    cases spec_pick_first_min score_le (block_score customer (sSort startLe bucket)
      st.ledger) caregivers <;> rfl

/-- The switch count the claim describes: list each day of a schedule in
RouteOrderer's sequence and count adjacent neighborhood changes, summing
over the days. -/
def claim_route_switches (td : List (ℤ × List Visit)) : ℕ :=
  (td.map (fun p => count_switches (route_order_day p.2))).sum

/-- C3 counterexample: a one-day block of three visits that the example
caregiver passes, on which the code's score carries 2 switches, computed
from the start-sorted listing, while listing the post-simulation day in
RouteOrderer's sequence yields 1 switch. -/
theorem switches_counterexample :
    (block_score 10 [exVisitA, exVisitB, exVisitC]
        { hours := fun _ => 0, daily := fun _ => [] } exCaregiver).map (fun s => s.1) =
      some 2 ∧
    claim_route_switches (dgroup (fun v => weekday v.start)
      [exVisitA, exVisitB, exVisitC]) = 1 ∧ (2 : ℕ) ≠ 1 := by
  refine ⟨?_, by decide, by decide⟩
  norm_num [block_score, simulate_block, is_caregiver_eligible_for_visit, exVisitA,
    exVisitB, exVisitC, exCaregiver, exWindow, visit_hours, weekday, dlookup, dappend,
    Visit.overlaps, total_switches, sSort, sInsert, startLe, count_switches]

/-- C3 amended: the switches component of a passing caregiver's score is
computed from the start-time-sorted listing of every day of the caregiver's
post-simulation day map (pre-existing days included), not from
RouteOrderer's sequence: the score is exactly (that count, real
pre-simulation hours, minus continuity bonus). -/
theorem switches_component_eq (customer : ℕ) (vs : List Visit) (led : Ledger)
    (c : Caregiver) :
    block_score customer vs led c =
      (simulate_block c vs (led.hours c.id) (led.daily c.id)).map (fun r =>
        ((r.2.map (fun p =>
          if p.2.length > 1 then count_switches (sSort startLe p.2) else 0)).sum,
         led.hours c.id, -(continuity_bonus customer (led.daily c.id) : ℤ))) := by
  unfold block_score total_switches
  cases simulate_block c vs (led.hours c.id) (led.daily c.id) <;> rfl

/-- C4 counterexample: a block whose RouteOrderer sequence is A, C, B but
whose visits end up recorded in the caregiver's Ledger day list in start
order A, B, C. -/
theorem ledger_order_counterexample :
    ordered_visits_of [exVisitA, exVisitB, exVisitC] =
      [exVisitA, exVisitC, exVisitB] ∧
    dlookup ((assign_all_visits_to_caregiver
        { assignments := [], ledger := { hours := fun _ => 0, daily := fun _ => [] } }
        [exVisitA, exVisitB, exVisitC] exCaregiver).ledger.daily exCaregiver.id)
      (weekday exVisitA.start) = [exVisitA, exVisitB, exVisitC] ∧
    ([exVisitA, exVisitB, exVisitC] : List Visit) ≠ [exVisitA, exVisitC, exVisitB] := by
  exact ⟨by decide, by decide, by decide⟩

/-- C4 amended: on selection every visit of the block is committed through
the shared assignment act in the start-time-sorted reordering of
RouteOrderer's concatenated per-day sequence — a permutation of that
sequence — so the Ledger records the block in ascending start order rather
than in RouteOrderer's own order. -/
theorem assign_all_commit_order (st : SolveState) (vs : List Visit) (c : Caregiver) :
    assign_all_visits_to_caregiver st vs c =
      (sSort startLe (ordered_visits_of vs)).foldl (fun s v => assign_visit s v c) st ∧
    (sSort startLe (ordered_visits_of vs)).Perm (ordered_visits_of vs) ∧
    (sSort startLe (ordered_visits_of vs)).Pairwise (fun a b => a.start ≤ b.start) := by
  refine ⟨rfl, sSort_perm startLe _, ?_⟩
  refine (sSort_pairwise startLe startLe_total startLe_trans _).imp ?_
  intro a b h
  rwa [startLe, decide_eq_true_eq] at h

/-- C5: the fallback picks exactly the first-minimum caregiver by the
lexicographic (minus travel bonus, current hours) score over the eligible
caregivers, ties resolved to input-list order; the solve fallback step
leaves the state unchanged when none is returned, and none is returned
exactly when no caregiver is eligible. -/
theorem fallback_selection_spec (visit : Visit) (caregivers : List Caregiver)
    (led : Ledger) (st : SolveState) :
    find_best_caregiver_for_visit visit caregivers led =
      spec_pick_first_min pair_le (spec_fallback_score visit led) caregivers ∧
    fallback_step caregivers st visit =
      (match spec_pick_first_min pair_le (spec_fallback_score visit st.ledger)
          caregivers with
        | some chosen => assign_visit st visit chosen
        | none => st) ∧
    (spec_pick_first_min pair_le (spec_fallback_score visit led) caregivers = none ↔
      ∀ c ∈ caregivers, is_caregiver_eligible_for_visit c visit (led.hours c.id)
        (led.daily c.id) = false) := by
  refine ⟨find_best_for_visit_eq_spec_pick visit caregivers led, ?_, ?_⟩
  · unfold fallback_step
    rw [find_best_for_visit_eq_spec_pick]
  · unfold spec_pick_first_min
    constructor
    · intro h c hc
      have h2 : spec_pick pair_le (spec_fallback_score visit led) caregivers = none := by
        cases hp : spec_pick pair_le (spec_fallback_score visit led) caregivers with
        | none => rfl
        | some q =>
          rw [hp] at h
          exact absurd h (by simp)
      have h3 := (spec_pick_none_iff pair_le _ caregivers).1 h2 c hc
      unfold spec_fallback_score at h3
      by_cases he : is_caregiver_eligible_for_visit c visit (led.hours c.id)
          (led.daily c.id) = true
      · rw [if_pos he] at h3
        exact absurd h3 (by simp)
      · cases hb : is_caregiver_eligible_for_visit c visit (led.hours c.id)
            (led.daily c.id) with
        | false => rfl
        | true => exact absurd hb he
    · intro h
      have hall : ∀ c ∈ caregivers, spec_fallback_score visit led c = none := by
        intro c hc
        unfold spec_fallback_score
        rw [if_neg (by simp [h c hc])]
      rw [(spec_pick_none_iff pair_le _ caregivers).2 hall]
      rfl

/-- C6: the block-candidate search hands the shared ledger back exactly as
it received it — every caregiver's accumulated hours and per-day visit
lists are unchanged — whether or not a caregiver is found; only the
assignment act ever changes shared state. -/
theorem block_search_frame (customer : ℕ) (customer_visits : List Visit)
    (caregivers : List Caregiver) (st : Ledger) :
    (find_best_caregiver_for_customer customer customer_visits caregivers st).2 = st ∧
    (∀ cid, (find_best_caregiver_for_customer customer customer_visits caregivers
      st).2.hours cid = st.hours cid) ∧
    (∀ cid, (find_best_caregiver_for_customer customer customer_visits caregivers
      st).2.daily cid = st.daily cid) := by
  have h := find_best_for_customer_frame customer customer_visits caregivers st
  exact ⟨h, fun cid => by rw [h], fun cid => by rw [h]⟩

/-- C7: with the distinct visit ids the data model promises, solve never
turns an unassignable visit into an error: its id is simply absent from the
output, every output id names an input visit, and no visit id appears more
than once in the output. -/
theorem solve_structural_failure (visits : List Visit) (caregivers : List Caregiver)
    (hids : (visits.map (fun v => v.id)).Nodup) :
    ((solve visits caregivers).map (fun a => a.visit_id)).Nodup ∧
    (∀ a ∈ solve visits caregivers, a.visit_id ∈ visits.map (fun v => v.id)) ∧
    (∀ v ∈ visits,
      (∀ c ∈ caregivers, ∀ (hrs : ℚ) (dly : List (ℤ × List Visit)),
        is_caregiver_eligible_for_visit c v hrs dly = false) →
      ∀ a ∈ solve visits caregivers, a.visit_id ≠ v.id) := by
  refine ⟨subperm_nodup (run_solve_ids_subperm visits caregivers) hids, ?_, ?_⟩
  · intro a ha
    exact (run_solve_ids_subperm visits caregivers).subset (List.mem_map_of_mem _ ha)
  · intro v hv hfail a ha heq
    have hp := solve_pairok visits caregivers a ha
    unfold PairOk at hp
    obtain ⟨v2, hv2, c, hc, h1, h2, hrs, dly, helig⟩ := hp
    have hveq : v2 = v :=
      nodup_map_inj (fun v => v.id) visits hids v2 v hv2 hv (h1.symm.trans heq)
    rw [hveq] at helig
    have hfalse := hfail c hc hrs dly
    rw [hfalse] at helig
    exact absurd helig (by simp)

/-- Witness for C7 at a concrete input. -/
theorem solve_structural_failure_witness :
    ((solve [exVisitA, exVisitB, exVisitC] [exCaregiver]).map
      (fun a => a.visit_id)).Nodup ∧
    (∀ a ∈ solve [exVisitA, exVisitB, exVisitC] [exCaregiver],
      a.visit_id ∈ [exVisitA, exVisitB, exVisitC].map (fun v => v.id)) ∧
    (∀ v ∈ [exVisitA, exVisitB, exVisitC],
      (∀ c ∈ [exCaregiver], ∀ (hrs : ℚ) (dly : List (ℤ × List Visit)),
        is_caregiver_eligible_for_visit c v hrs dly = false) →
      ∀ a ∈ solve [exVisitA, exVisitB, exVisitC] [exCaregiver], a.visit_id ≠ v.id) :=
  solve_structural_failure [exVisitA, exVisitB, exVisitC] [exCaregiver] (by decide)

/-- C8: solve is deterministic — any two runs on the same visit list and
the same caregiver list return the same assignment list. -/
theorem solve_deterministic (visits : List Visit) (caregivers : List Caregiver)
    (out1 out2 : List Assignment) (h1 : out1 = solve visits caregivers)
    (h2 : out2 = solve visits caregivers) : out1 = out2 := by
  rw [h1, h2]

/-- Witness for C8 at a concrete input. -/
theorem solve_deterministic_witness :
    solve [exVisitA] [exCaregiver] = solve [exVisitA] [exCaregiver] :=
  solve_deterministic [exVisitA] [exCaregiver] _ _ rfl rfl

/-- Modelled from the spec: the ideal per-customer continuity score, one
for a single visit and 1 - 1/n for n visits. -/
def spec_ideal_score (n : ℕ) : ℚ :=
  if n = 1 then 1 else 1 - 1 / (n : ℚ)

/-- C9: max_continuity_score returns one on the empty list, and otherwise
the unweighted mean over customers of the per-customer ideal score: one for
a single-visit customer and 1 - 1/n for an n-visit customer. -/
theorem max_continuity_score_spec (visits : List Visit) :
    (visits = [] → max_continuity_score visits = 1) ∧
    (visits ≠ [] →
      max_continuity_score visits =
        (((visits.map (fun v => v.customer)).dedup).map (fun cust =>
          spec_ideal_score ((visits.filter (fun v => v.customer = cust)).length))).sum /
        ((((visits.map (fun v => v.customer)).dedup).length : ℚ))) := by
  constructor
  · intro h
    subst h
    rfl
  · intro hne
    unfold max_continuity_score
    dsimp only
    have hscores : (dgroup (fun v => v.customer) visits).map
          (fun p => if p.2.length = 1 then (1 : ℚ) else 1 - 1 / (p.2.length : ℚ)) =
        ((dgroup (fun v => v.customer) visits).map Prod.fst).map (fun cust =>
          spec_ideal_score ((visits.filter (fun v => v.customer = cust)).length)) := by
      rw [List.map_map]
      refine List.map_congr_left ?_
      intro p hp
      have hbucket := dgroup_bucket_eq (fun v => v.customer) visits p hp
      dsimp only [Function.comp]
      rw [← hbucket, spec_ideal_score]
    have hkeysperm : ((dgroup (fun v => v.customer) visits).map Prod.fst).Perm
        ((visits.map (fun v => v.customer)).dedup) := by
      refine (List.perm_ext_iff_of_nodup (dgroup_keys_nodup _ _)
        (List.nodup_dedup _)).2 ?_
      intro k
      rw [List.mem_dedup, mem_keys_dgroup, List.mem_map]
    have hGne : dgroup (fun v => v.customer) visits ≠ [] := by
      intro h
      apply hne
      have h2 := dgroup_flatten_perm (fun v => v.customer) visits
      rw [h] at h2
      exact (List.Perm.nil_eq h2).symm
    have hscore_ne : (dgroup (fun v => v.customer) visits).map
        (fun p => if p.2.length = 1 then (1 : ℚ) else 1 - 1 / (p.2.length : ℚ)) ≠ [] := by
      simpa using hGne
    rw [if_neg hscore_ne, hscores]
    have hsum := (hkeysperm.map (fun cust =>
      spec_ideal_score ((visits.filter (fun v => v.customer = cust)).length))).sum_eq
    rw [hsum]
    have hlen : (((dgroup (fun v => v.customer) visits).map Prod.fst).map (fun cust =>
        spec_ideal_score ((visits.filter (fun v => v.customer = cust)).length))).length =
        ((visits.map (fun v => v.customer)).dedup).length := by
      rw [List.length_map, hkeysperm.length_eq]
    rw [hlen]

/-- Witness for C9 at the empty input and at a concrete input. -/
theorem max_continuity_score_spec_witness :
    max_continuity_score ([] : List Visit) = 1 ∧
    max_continuity_score [exVisitA, exVisitB, exVisitC] =
      ((([exVisitA, exVisitB, exVisitC].map (fun v => v.customer)).dedup).map (fun cust =>
        spec_ideal_score (([exVisitA, exVisitB, exVisitC].filter
          (fun v => v.customer = cust)).length))).sum /
      (((([exVisitA, exVisitB, exVisitC].map (fun v => v.customer)).dedup).length : ℚ)) :=
  ⟨(max_continuity_score_spec []).1 rfl,
   (max_continuity_score_spec [exVisitA, exVisitB, exVisitC]).2 (by decide)⟩

/-- C10: for a customer assigned via the block path, the assignment pairs
are appended to the output — and the visits recorded into the Ledger — in
ascending start-time order: the RouteOrderer result is re-sorted by start
before committing, and the committed sequence is a permutation of the
block's visits. -/
theorem block_commit_start_sorted (st : SolveState) (vs : List Visit) (c : Caregiver) :
    (assign_all_visits_to_caregiver st vs c).assignments =
      st.assignments ++ (sSort startLe (ordered_visits_of vs)).map
        (fun v => { visit_id := v.id, caregiver_id := c.id }) ∧
    (sSort startLe (ordered_visits_of vs)).Pairwise (fun a b => a.start ≤ b.start) ∧
    (sSort startLe (ordered_visits_of vs)).Perm vs := by
  refine ⟨?_, ?_, commit_list_perm vs⟩
  · unfold assign_all_visits_to_caregiver
    rw [foldl_assign_assignments]
  · refine (sSort_pairwise startLe startLe_total startLe_trans _).imp ?_
    intro a b h
    rwa [startLe, decide_eq_true_eq] at h

end BloomCare
